import Mathlib

/-!
# Verification of the chess-framework momentum backtester

A shallow embedding of the scoring-and-decision core of the repository
(`chess_backtester_single_file.py` and `chess_framework.py`) together with
proofs settling the frozen specification claims.

Modelling conventions:
* Python floats are modelled by `ℚ` (the core only adds, multiplies, divides
  and compares; all claims are about exact deterministic mechanics).
* A pandas `NaN` cell is modelled by `none : Option ℚ`.
* Python dictionaries that the loop mutates (`positions`) are modelled by
  insertion-ordered association lists, matching dict iteration order.
* `pandas.Timestamp` dates are modelled by integers counting calendar days,
  so `(a - b).days` becomes integer subtraction.
-/

namespace Chess

/-! ## Piece inventory (`PieceInventory` in both source files)

`chess_backtester_single_file.py` lines 134-195 and `chess_framework.py`
lines 196-277 build the same 15-piece pool.  A piece is a record with a
point value `PV`, a monetary `value`, and an `assigned` flag.  The source
id strings `f"{type}_{idx}_{uuid}"` are modelled by the construction index
`idx` alone (the uuid suffix only guarantees uniqueness, which the index
already provides). -/

structure Piece where
  id : ℕ
  ptype : String
  PV : ℕ
  value : ℚ
  assigned : Bool
deriving DecidableEq, Repr

/-- `TOTAL_POINTS = 39` (both files). -/
def TOTAL_POINTS : ℕ := 39

/-- The fixed size-class table `[("Queen",9,1),("Rook",5,2),("Bishop",3,2),
("Knight",3,2),("Pawn",1,8)]` of `_build_pieces`. -/
def piece_mapping : List (String × ℕ × ℕ) :=
  [("Queen", 9, 1), ("Rook", 5, 2), ("Bishop", 3, 2), ("Knight", 3, 2), ("Pawn", 1, 8)]

/-- One size class expanded into `qty` pieces with consecutive ids. -/
def expand_class (ptype : String) (pv qty : ℕ) (mult : ℚ) (start : ℕ) : List Piece :=
  (List.range qty).map fun k => ⟨start + k, ptype, pv, pv * mult, false⟩

/-- Walk the mapping carrying the running piece counter. -/
def build_from_mapping (mult : ℚ) : List (String × ℕ × ℕ) → ℕ → List Piece
  | [], _ => []
  | (t, pv, qty) :: rest, idx =>
      expand_class t pv qty mult idx ++ build_from_mapping mult rest (idx + qty)

/-- `PieceInventory._build_pieces`: each piece's monetary value is
`PV * momentum_capital / TOTAL_POINTS`, fixed at construction. -/
def build_pieces (momentum_capital : ℚ) : List Piece :=
  build_from_mapping (momentum_capital / (TOTAL_POINTS : ℚ)) piece_mapping 0

/-- `PieceInventory.get_best_piece_for_rank` (identical bodies in
`chess_backtester_single_file.py` lines 169-174 and `chess_framework.py`
lines 235-241): `sorted(unassigned, key=lambda x: -x["PV"])[0]`, i.e. the
first unassigned piece of maximal point value (Python's sort is stable, so
ties keep list order, which is what `List.argmax` returns); `none` when all
pieces are assigned.  The `rank` argument is accepted but never used. -/
def get_best_piece_for_rank (inv : List Piece) (rank : ℕ) : Option Piece :=
  (inv.filter fun p => !p.assigned).argmax Piece.PV

/-- `PieceInventory.get_tactical_piece` as written in
`chess_backtester_single_file.py` lines 176-181: the first unassigned piece
of minimal point value, with NO restriction on the piece type. -/
def get_tactical_piece (inv : List Piece) : Option Piece :=
  (inv.filter fun p => !p.assigned).argmin Piece.PV

/-- `PieceInventory.get_tactical_piece` as written in `chess_framework.py`
lines 243-248: same, but restricted to unassigned Pawns and Knights
(`p.piece_type in (PieceType.PAWN, PieceType.KNIGHT)`). -/
def get_tactical_piece_framework (inv : List Piece) : Option Piece :=
  (inv.filter fun p => !p.assigned && (p.ptype = "Pawn" || p.ptype = "Knight")).argmin Piece.PV

/-- `PieceInventory.assign_piece`: set the `assigned` flag of the first
piece with the given id. -/
def assign_piece : List Piece → ℕ → List Piece
  | [], _ => []
  | p :: ps, pid =>
      if p.id = pid then { p with assigned := true } :: ps
      else p :: assign_piece ps pid

/-- `PieceInventory.recycle_piece`: clear the `assigned` flag of the first
piece with the given id; the `returned_value` argument is ignored by the
source body exactly as here. -/
def recycle_piece : List Piece → ℕ → ℚ → List Piece
  | [], _, _ => []
  | p :: ps, pid, rv =>
      if p.id = pid then { p with assigned := false } :: ps
      else p :: recycle_piece ps pid rv

/-- Sum of the monetary values of a pool. -/
def pool_value (inv : List Piece) : ℚ :=
  (inv.map Piece.value).sum

/-! ## SOS scoring (`compute_sos_frame`, `map_sos_to_rank`, `map_sos_to_file`)

From `chess_backtester_single_file.py` lines 56-126.  The price panel is a
total function `price : day → ticker → ℚ` (the source drops every column
still containing `NaN` before use, so the panel itself has no gaps); the
tickers are indexed `0, …, numTickers-1` in column order. -/

/-- `price_df.pct_change().fillna(0)`: daily return, 0 on the first row. -/
def pct_change_ret (price : ℕ → ℕ → ℚ) (i t : ℕ) : ℚ :=
  if i = 0 then 0 else price i t / price (i - 1) t - 1

/-- `price_df.rolling(window=w, min_periods=w).mean()`: defined (`some`)
exactly from the `w`-th observation on. -/
def rolling_mean (price : ℕ → ℕ → ℚ) (w : ℕ) (i t : ℕ) : Option ℚ :=
  if i + 1 < w then none
  else some ((((List.range w).map fun j => price (i - j) t).sum) / (w : ℚ))

/-- Sample variance with `ddof = 1`, the square of the pandas `std`. -/
def sample_var (xs : List ℚ) : ℚ :=
  let n : ℚ := (xs.length : ℚ)
  let mean := xs.sum / n
  ((xs.map fun x => (x - mean) ^ 2).sum) / (n - 1)

/-- `returns.rolling(window=w, min_periods=w).std()`.  The payload carried
here is the sample variance (the square of the source's standard deviation):
the square root of a rational is irrational in general, and every claim
settled in this development depends only on the `min_periods` definedness of
this column (it participates in the score only after being replaced by `0`
while undefined), never on its magnitude on dates where it is defined. -/
def rolling_vol (price : ℕ → ℕ → ℚ) (w : ℕ) (i t : ℕ) : Option ℚ :=
  if i + 1 < w then none
  else some (sample_var ((List.range w).map fun j => pct_change_ret price (i - j) t))

/-- `mom = price_df / ma - 1.0` followed by the per-date `.fillna(0)`:
`NaN` exactly where the moving average is undefined, then filled with 0. -/
def mom_raw (price : ℕ → ℕ → ℚ) (w : ℕ) (i t : ℕ) : ℚ :=
  match rolling_mean price w i t with
  | none => 0
  | some m => price i t / m - 1

/-- The volatility column after the per-date `.fillna(0)`. -/
def vol_raw (price : ℕ → ℕ → ℚ) (w : ℕ) (i t : ℕ) : ℚ :=
  match rolling_vol price w i t with
  | none => 0
  | some v => v

/-- `Series.max()` of a per-date cross-section (the sections used are
nonempty whenever there is at least one ticker; `0` is a dummy for `[]`). -/
def listMax (xs : List ℚ) : ℚ := xs.foldl max (xs.headD 0)

/-- `Series.min()` of a per-date cross-section. -/
def listMin (xs : List ℚ) : ℚ := xs.foldl min (xs.headD 0)

/-- Min-max normalisation with the all-equal fallback 0.5, as used for the
momentum score and the final SOS normalisation. -/
def minmax_score (xs : List ℚ) (x : ℚ) : ℚ :=
  if listMax xs = listMin xs then 1 / 2
  else (x - listMin xs) / (listMax xs - listMin xs)

/-- The number the per-date loop of `compute_sos_frame` writes into the
`(ticker t, "SOS")` cell of date `i` (lines 81-104): normalised momentum,
inverted normalised volatility, neutral liquidity 0.5, weighted sum, and a
final min-max normalisation, each with the all-equal fallback 0.5. -/
def sos_val (price : ℕ → ℕ → ℚ) (numTickers w : ℕ) (wM wV wL : ℚ) (i t : ℕ) : ℚ :=
  let moms := (List.range numTickers).map fun s => mom_raw price w i s
  let vols := (List.range numTickers).map fun s => vol_raw price w i s
  let mscore := fun s => minmax_score moms (mom_raw price w i s)
  let vscore := fun s =>
    if listMax vols = listMin vols then 1 / 2
    else 1 - (vol_raw price w i s - listMin vols) / (listMax vols - listMin vols)
  let sraw := fun s => wM * mscore s + wV * vscore s + wL * (1 / 2)
  let raws := (List.range numTickers).map sraw
  minmax_score raws (sraw t)

/-- The `(t, "SOS")` column of the frame returned by `compute_sos_frame`:
initialised to `NaN` (line 76) but then overwritten for EVERY date of the
index by the per-date loop (lines 81-104), so the returned column holds a
number on every date, early dates included. -/
def sos_col (price : ℕ → ℕ → ℚ) (numTickers w : ℕ) (wM wV wL : ℚ) (i t : ℕ) : Option ℚ :=
  some (sos_val price numTickers w wM wV wL i t)

/-- `map_sos_to_rank`: `1 + floor((1 - sos) * 8)` clamped into `[1, 8]`. -/
def map_sos_to_rank (s : ℚ) : ℕ :=
  (max 1 (min 8 (1 + ⌊(1 - s) * 8⌋))).toNat

/-- `map_sos_to_file`: `"ABCDEFGH"[clamp(floor(sos * 8), 0, 7)]`. -/
def map_sos_to_file (s : ℚ) : Char :=
  ['A', 'B', 'C', 'D', 'E', 'F', 'G', 'H'].getD (max 0 (min 7 ⌊s * 8⌋)).toNat 'A'

/-- `map_sos_to_tile`. -/
def map_sos_to_tile (s : ℚ) : ℕ × Char :=
  (map_sos_to_rank s, map_sos_to_file s)

/-! ## Trading rules and suggestion engine (`chess_framework.py`)

Only the pieces of `TradingRulesEngine` / `MoveSuggestionEngine` that the
claims refer to are embedded.  A `StockTile` carries the fields the embedded
predicates read; the human-readable reason strings the source interpolates
with f-strings are display-only and omitted. -/

structure StockTile where
  ticker : ℕ
  current_price : ℚ
  moving_average : ℚ
  sos_score : ℚ
  square_color : String
  rank : ℕ
  file : Char
deriving DecidableEq

/-- `TradingRulesEngine.can_deploy_on_white` (lines 464-486): White square
only, and the four rank bands require minimum point values 1 / 3 / 5 / 9. -/
def can_deploy_on_white (tile : StockTile) (piece : Piece) : Bool :=
  if tile.square_color ≠ "white" then false
  else if tile.rank ≤ 2 then decide (¬ piece.PV < 1)
  else if tile.rank ≤ 4 then decide (¬ piece.PV < 3)
  else if tile.rank ≤ 6 then decide (¬ piece.PV < 5)
  else decide (¬ piece.PV < 9)

/-- `TradingRulesEngine.can_deploy_tactical_black` (lines 488-499): Black
square only, Pawns/Knights only. -/
def can_deploy_tactical_black (tile : StockTile) (piece : Piece) : Bool :=
  if tile.square_color ≠ "black" then false
  else decide (piece.ptype = "Pawn" ∨ piece.ptype = "Knight")

/-- A suggestion record emitted by `_analyze_deployment_opportunity`
(the `reason` f-string is omitted). -/
structure DeployAdvice where
  action : String
  ticker : ℕ
  piece : String
  priority_score : ℚ
  sos_score : ℚ
deriving DecidableEq

/-- `MoveSuggestionEngine._analyze_deployment_opportunity` (lines 636-668).
The White-square advisory is gated by `can_deploy` AND the capital-headroom
check `pieces_deployed < king_cash / piece.monetary_value`; the tactical
Black-square advisory is gated by `can_deploy` alone.  (When
`piece.monetary_value = 0` Python would raise `ZeroDivisionError`; in `ℚ`
division by zero yields 0 and no advisory — no claim touches that corner.) -/
def analyze_deployment_opportunity (tile : StockTile) (inventory : List Piece)
    (pieces_deployed : ℕ) (king_cash : ℚ) : List DeployAdvice :=
  let white_advice : List DeployAdvice :=
    match get_best_piece_for_rank inventory tile.rank with
    | none => []
    | some piece =>
        if tile.square_color = "white" ∧ can_deploy_on_white tile piece = true
            ∧ (pieces_deployed : ℚ) < king_cash / piece.value then
          [⟨"DEPLOYMENT", tile.ticker, piece.ptype, tile.sos_score * 100, tile.sos_score⟩]
        else []
  let black_advice : List DeployAdvice :=
    match get_tactical_piece_framework inventory with
    | none => []
    | some tp =>
        if tile.square_color = "black" ∧ can_deploy_tactical_black tile tp = true then
          [⟨"DEPLOYMENT_TACTICAL", tile.ticker, tp.ptype, tile.sos_score * 50, tile.sos_score⟩]
        else []
  white_advice ++ black_advice

/-! ## The backtest loop (`run_backtest`, `chess_backtester_single_file.py`
lines 246-449)

The loop consumes the price panel together with the `MA` and `SOS` columns
of the SOS frame.  The structural claims about the loop are proved for an
arbitrary `MarketData`, which in particular covers the tables the real
pipeline derives via `compute_sos_frame`. -/

structure MarketData where
  tickers : List ℕ
  numDays : ℕ
  date : ℕ → ℤ
  price : ℕ → ℕ → Option ℚ
  ma : ℕ → ℕ → Option ℚ
  sos : ℕ → ℕ → Option ℚ

/-- An entry of the `positions` dict (lines 362-370 / 396-405).  White
deployments never set the `tactical_reclaimed` key; the source reads it with
`pos.get("tactical_reclaimed", False)`, so `false` is the faithful value. -/
structure Position where
  shares : ℤ
  avg_entry : ℚ
  opened_date : ℤ
  piece_id : ℕ
  piece_type : String
  initiated_on_square : String
  tactical_black : Bool
  tactical_reclaimed : Bool
deriving DecidableEq

/-- A row of the trade ledger.  `closed_date` is `none` for the empty string
a BUY writes. -/
structure TradeRec where
  ticker : ℕ
  action : String
  price : ℚ
  shares : ℤ
  value : ℚ
  opened_date : ℤ
  closed_date : Option ℤ
  reason : String
  initiated_on_square : String
  tactical : Bool
deriving DecidableEq

/-- The mutable state owned by the loop. -/
structure BTState where
  positions : List (ℕ × Position)
  inventory : List Piece
  trades : List TradeRec
deriving DecidableEq

/-- `"white" if price > ma else "black"`. -/
def square_of (price ma : ℚ) : String :=
  if price > ma then "white" else "black"

/-- The SELL dict literal recorded by the close executions (lines 318-329)
and, with reason `end_of_sim`, by the end-of-run close (lines 428-439). -/
def sell_record (t : ℕ) (pos : Position) (ep : ℚ) (closed : ℤ) (reason : String) : TradeRec :=
  ⟨t, "SELL", ep, pos.shares, ep * pos.shares, pos.opened_date, some closed,
    reason, pos.initiated_on_square, pos.tactical_black⟩

/-- The BUY dict literal recorded by a deployment (lines 372-383 and
407-418): dated TOMORROW, with an empty `closed_date`. -/
def buy_record (t : ℕ) (ep : ℚ) (shares : ℤ) (opened : ℤ) (reason square : String)
    (tactical : Bool) : TradeRec :=
  ⟨t, "BUY", ep, shares, ep * shares, opened, none, reason, square, tactical⟩

/-- The `positions[ticker]` dict literal stored by a White deployment
(lines 362-370): note `opened_date` is TODAY, the decision day. -/
def white_position (shares : ℤ) (ep : ℚ) (today : ℤ) (piece : Piece) : Position :=
  ⟨shares, ep, today, piece.id, piece.ptype, "white", false, false⟩

/-- The `positions[ticker]` dict literal stored by a tactical Black
deployment (lines 396-405): again `opened_date` is TODAY. -/
def black_position (shares : ℤ) (ep : ℚ) (today : ℤ) (piece : Piece) : Position :=
  ⟨shares, ep, today, piece.id, piece.ptype, "black", true, false⟩

/-- Dict lookup `positions[ticker]` / membership test. -/
def find_pos : List (ℕ × Position) → ℕ → Option Position
  | [], _ => none
  | (a, p) :: rest, t => if a = t then some p else find_pos rest t

/-- `positions.pop(ticker)`: remove the (unique) binding, returning it. -/
def pop_pos : List (ℕ × Position) → ℕ → Option Position × List (ℕ × Position)
  | [], _ => (none, [])
  | (a, p) :: rest, t =>
      if a = t then (some p, rest)
      else
        let r := pop_pos rest t
        (r.1, (a, p) :: r.2)

/-- Phase 1 decision pass (lines 290-308): walk the open positions in dict
order; skip tickers whose price or MA is `NaN` today; latch
`tactical_reclaimed` when a tactical position is seen on White; queue
`(ticker, reason)` for the reclaim-timeout and White→Black stop-loss rules.
Returns the updated positions and the `to_close` queue in iteration order. -/
def close_decide (today : ℤ) (prices mas : ℕ → Option ℚ) (reclaim_window : ℤ) :
    List (ℕ × Position) → List (ℕ × Position) × List (ℕ × String)
  | [] => ([], [])
  | (t, pos) :: rest =>
      let r := close_decide today prices mas reclaim_window rest
      match prices t, mas t with
      | some price, some ma =>
          if pos.tactical_black then
            if square_of price ma = "white" then
              (((t, { pos with tactical_reclaimed := true }) :: r.1), r.2)
            else if today - pos.opened_date ≥ reclaim_window ∧ pos.tactical_reclaimed = false then
              ((t, pos) :: r.1, (t, "tactical_reclaim_failed") :: r.2)
            else ((t, pos) :: r.1, r.2)
          else
            if pos.initiated_on_square = "white" ∧ square_of price ma = "black" then
              ((t, pos) :: r.1, (t, "black_flip_stoploss") :: r.2)
            else ((t, pos) :: r.1, r.2)
      | _, _ => ((t, pos) :: r.1, r.2)

/-- Phase 1 execution pass (lines 310-330): each queued close executes at
TOMORROW's price; a `NaN` execution price skips the close entirely (the
position stays open); otherwise the position is popped, a SELL record is
appended and the piece is recycled. -/
def exec_closes (nextPrices : ℕ → Option ℚ) (tomorrow : ℤ) :
    List (ℕ × String) → BTState → BTState
  | [], st => st
  | (t, reason) :: q, st =>
      match pop_pos st.positions t with
      | (none, _) => exec_closes nextPrices tomorrow q st
      | (some pos, rest) =>
          match nextPrices t with
          | none => exec_closes nextPrices tomorrow q st
          | some ep =>
              exec_closes nextPrices tomorrow q
                { positions := rest,
                  inventory := recycle_piece st.inventory pos.piece_id (ep * pos.shares),
                  trades := st.trades ++ [sell_record t pos ep tomorrow reason] }

/-- A phase 2 candidate tuple `(float(sos_val), ticker, square)`. -/
structure Cand where
  sos : ℚ
  ticker : ℕ
  square : String
deriving DecidableEq

/-- The comparison realised by `sorted(cand, key=lambda x: (-x[0], x[1]))`:
descending SOS, ties broken by ascending ticker. -/
def cand_le (a b : Cand) : Bool :=
  decide (b.sos < a.sos) || (decide (a.sos = b.sos) && decide (a.ticker ≤ b.ticker))

/-- Stable insertion used to model Python's stable `sorted`. -/
def insert_cand (a : Cand) : List Cand → List Cand
  | [] => [a]
  | b :: bs => if cand_le a b then a :: b :: bs else b :: insert_cand a bs

/-- Stable sort of the candidate list (Python's `sorted` is stable; on the
total key `(-sos, ticker)` every stable sort produces the same list). -/
def sort_cands : List Cand → List Cand
  | [] => []
  | a :: as' => insert_cand a (sort_cands as')

/-- Candidate collection (lines 335-345): not-yet-held tickers, in ticker
list order, skipping any with `NaN` price, MA or SOS today. -/
def build_cands (md : MarketData) (i : ℕ) (positions : List (ℕ × Position)) : List Cand :=
  md.tickers.filterMap fun t =>
    if (find_pos positions t).isSome then none
    else
      match md.price i t, md.ma i t, md.sos i t with
      | some price, some ma, some s => some ⟨s, t, square_of price ma⟩
      | _, _, _ => none

/-- Phase 2 deployment walk (lines 348-419) over the sorted candidates.
`slots` is `available_slots`; the walk stops when it reaches 0.  A White
candidate takes the best piece for its rank, a Black candidate takes a
tactical piece (the single-file `get_tactical_piece`); either is skipped
when no piece is available, tomorrow's entry price is `NaN` or ≤ 0, or the
computed share count `int(value // price)` is ≤ 0.  A successful open
appends the position (dict insertion = at the end), marks the piece
assigned, and records a BUY at tomorrow's price dated tomorrow. -/
def open_go (md : MarketData) (i : ℕ) : List Cand → ℤ → BTState → BTState
  | [], _, st => st
  | c :: cs, slots, st =>
      if slots ≤ 0 then st
      else if c.square = "white" then
        match get_best_piece_for_rank st.inventory (map_sos_to_tile c.sos).1 with
        | none => open_go md i cs slots st
        | some piece =>
            match md.price (i + 1) c.ticker with
            | none => open_go md i cs slots st
            | some ep =>
                if ep ≤ 0 then open_go md i cs slots st
                else
                  let shares : ℤ := ⌊piece.value / ep⌋
                  if shares ≤ 0 then open_go md i cs slots st
                  else
                    open_go md i cs (slots - 1)
                      { positions := st.positions ++
                          [(c.ticker, white_position shares ep (md.date i) piece)],
                        inventory := assign_piece st.inventory piece.id,
                        trades := st.trades ++
                          [buy_record c.ticker ep shares (md.date (i + 1))
                            "deploy_on_white" "white" false] }
      else if c.square = "black" then
        match get_tactical_piece st.inventory with
        | none => open_go md i cs slots st
        | some piece =>
            match md.price (i + 1) c.ticker with
            | none => open_go md i cs slots st
            | some ep =>
                if ep ≤ 0 then open_go md i cs slots st
                else
                  let shares : ℤ := ⌊piece.value / ep⌋
                  if shares ≤ 0 then open_go md i cs slots st
                  else
                    open_go md i cs (slots - 1)
                      { positions := st.positions ++
                          [(c.ticker, black_position shares ep (md.date i) piece)],
                        inventory := assign_piece st.inventory piece.id,
                        trades := st.trades ++
                          [buy_record c.ticker ep shares (md.date (i + 1))
                            "tactical_black_entry" "black" true] }
      else open_go md i cs slots st

/-- One iteration of the day loop at index `i` (`today = dates[i]`,
`tomorrow = dates[i+1]`): close decisions against today's board, execution
at tomorrow's prices, then deployment of new pieces into the remaining
slots. -/
def day_step (md : MarketData) (reclaim_window : ℤ) (max_positions : ℕ) (i : ℕ)
    (st : BTState) : BTState :=
  let r := close_decide (md.date i) (md.price i) (md.ma i) reclaim_window st.positions
  let st2 := exec_closes (md.price (i + 1)) (md.date (i + 1)) r.2
    { st with positions := r.1 }
  let slots : ℤ := (max_positions : ℤ) - st2.positions.length
  if slots > 0 then
    open_go md i (sort_cands (build_cands md i st2.positions)) slots st2
  else st2

/-- `for i in range(ma_period, len(dates) - 1)`: `n` consecutive day steps
starting at index `i`. -/
def run_days (md : MarketData) (reclaim_window : ℤ) (max_positions : ℕ) :
    ℕ → ℕ → BTState → BTState
  | _, 0, st => st
  | i, n + 1, st => run_days md reclaim_window max_positions (i + 1) n
      (day_step md reclaim_window max_positions i st)

/-- End-of-run force close (lines 421-441): walk a snapshot of the open
positions; a `NaN` last price skips the position (it is neither recorded
nor popped), otherwise a SELL with reason `end_of_sim` is recorded at the
final date's price and the piece is recycled. -/
def final_close (lastPrices : ℕ → Option ℚ) (lastDate : ℤ) :
    List (ℕ × Position) → BTState → BTState
  | [], st => st
  | (t, pos) :: rest, st =>
      match lastPrices t with
      | none => final_close lastPrices lastDate rest st
      | some ep =>
          final_close lastPrices lastDate rest
            { positions := (pop_pos st.positions t).2,
              inventory := recycle_piece st.inventory pos.piece_id (ep * pos.shares),
              trades := st.trades ++ [sell_record t pos ep lastDate "end_of_sim"] }

/-- `risk_map.get(risk_level, 0.3)` with `{"High": 0.5, "Moderate": 0.3,
"Low": 0.1}`. -/
def risk_alloc (risk_level : String) : ℚ :=
  if risk_level = "High" then 1 / 2
  else if risk_level = "Moderate" then 3 / 10
  else if risk_level = "Low" then 1 / 10
  else 3 / 10

/-- `run_backtest`: fail fast when fewer than `ma_period + 2` rows survive,
otherwise build the inventory from the sub-budget, run the day loop from
index `ma_period` through `len(dates) - 2`, and force-close the leftovers at
the final date. -/
def run_backtest (md : MarketData) (total_capital : ℚ) (risk_level : String)
    (ma_period : ℕ) (reclaim_window : ℤ) (max_positions : ℕ) : Except String BTState :=
  if md.numDays < ma_period + 2 then
    .error "Not enough data to compute MA with the selected period."
  else
    let momentum_capital := total_capital * risk_alloc risk_level
    let st0 : BTState := ⟨[], build_pieces momentum_capital, []⟩
    let st1 := run_days md reclaim_window max_positions ma_period
      (md.numDays - 1 - ma_period) st0
    .ok (final_close (md.price (md.numDays - 1)) (md.date (md.numDays - 1))
      st1.positions st1)

/-! ## Concrete fixtures used by counterexamples and witnesses -/

/-- A pool state in which every Pawn, Knight and Bishop is assigned and one
Rook (and the Queen) remain free: the ids of the 3900-sub-budget pool are
Queen 0, Rooks 1-2, Bishops 3-4, Knights 5-6, Pawns 7-14; here everything
except Rook 1 and Queen 0 is assigned, then the Queen too. -/
def c3_pool : List Piece :=
  [0, 2, 3, 4, 5, 6, 7, 8, 9, 10, 11, 12, 13, 14].foldl assign_piece (build_pieces 3900)

/-- The 3900 pool with every unit assigned. -/
def all_assigned_pool : List Piece :=
  (List.range 15).foldl assign_piece (build_pieces 3900)

/-- A Black-square tile fixture. -/
def c8_tile : StockTile :=
  ⟨0, 10, 20, 1 / 2, "black", 4, 'E'⟩

/-- A White-initiated non-tactical open position fixture. -/
def c1_pos : Position := ⟨5, 10, 100, 0, "Queen", "white", false, false⟩

/-- A backtest state holding only `c1_pos` for ticker 0. -/
def c1_st : BTState := ⟨[(0, c1_pos)], build_pieces 3900, []⟩

/-- Market data fixture: one ticker, price 10 below its moving average 20
on every day (Black zone), no SOS. -/
def c1_md : MarketData :=
  ⟨[0], 3, fun i => 50 + i, fun _ _ => some 10, fun _ _ => some 20, fun _ _ => none⟩

/-- A tactical position fixture whose reclaim flag is latched. -/
def c9_pos : Position := ⟨10, 10, 104, 7, "Pawn", "black", true, true⟩

/-- A backtest state holding only `c9_pos` for ticker 0. -/
def c9_st : BTState := ⟨[(0, c9_pos)], assign_piece (build_pieces 3900) 7, []⟩

/-- Market data fixture: one ticker, price 10 above its moving average 5
(White zone) on every day. -/
def c9_md : MarketData :=
  ⟨[0], 9, fun i => 100 + i, fun _ _ => some 10, fun _ _ => some 5, fun _ _ => some (1 / 2)⟩

/-- The same fixture with its reclaim flag still unset. -/
def c9_pos_unreclaimed : Position := ⟨10, 10, 104, 7, "Pawn", "black", true, false⟩

/-- The first Pawn of the 3900 pool, with its monetary value written as the
pool constructor computes it. -/
def c10_pawn : Piece := ⟨7, "Pawn", 1, (1 : ℕ) * ((3900 : ℚ) / (TOTAL_POINTS : ℚ)), false⟩

/-- A backtest state holding only `c9_pos_unreclaimed` for ticker 0. -/
def c9_st_unreclaimed : BTState :=
  ⟨[(0, c9_pos_unreclaimed)], assign_piece (build_pieces 3900) 7, []⟩

/-! # Helper lemmas -/

/-- The fresh pool written out: `build_pieces` fully reduced. -/
theorem build_pieces_eq (B : ℚ) : build_pieces B = [
    ⟨0, "Queen", 9, (9 : ℕ) * (B / (TOTAL_POINTS : ℚ)), false⟩,
    ⟨1, "Rook", 5, (5 : ℕ) * (B / (TOTAL_POINTS : ℚ)), false⟩,
    ⟨2, "Rook", 5, (5 : ℕ) * (B / (TOTAL_POINTS : ℚ)), false⟩,
    ⟨3, "Bishop", 3, (3 : ℕ) * (B / (TOTAL_POINTS : ℚ)), false⟩,
    ⟨4, "Bishop", 3, (3 : ℕ) * (B / (TOTAL_POINTS : ℚ)), false⟩,
    ⟨5, "Knight", 3, (3 : ℕ) * (B / (TOTAL_POINTS : ℚ)), false⟩,
    ⟨6, "Knight", 3, (3 : ℕ) * (B / (TOTAL_POINTS : ℚ)), false⟩,
    ⟨7, "Pawn", 1, (1 : ℕ) * (B / (TOTAL_POINTS : ℚ)), false⟩,
    ⟨8, "Pawn", 1, (1 : ℕ) * (B / (TOTAL_POINTS : ℚ)), false⟩,
    ⟨9, "Pawn", 1, (1 : ℕ) * (B / (TOTAL_POINTS : ℚ)), false⟩,
    ⟨10, "Pawn", 1, (1 : ℕ) * (B / (TOTAL_POINTS : ℚ)), false⟩,
    ⟨11, "Pawn", 1, (1 : ℕ) * (B / (TOTAL_POINTS : ℚ)), false⟩,
    ⟨12, "Pawn", 1, (1 : ℕ) * (B / (TOTAL_POINTS : ℚ)), false⟩,
    ⟨13, "Pawn", 1, (1 : ℕ) * (B / (TOTAL_POINTS : ℚ)), false⟩,
    ⟨14, "Pawn", 1, (1 : ℕ) * (B / (TOTAL_POINTS : ℚ)), false⟩] := rfl

theorem foldl_max_replicate (c : ℚ) : ∀ m : ℕ, (List.replicate m c).foldl max c = c
  | 0 => rfl
  | m + 1 => by
      rw [List.replicate_succ, List.foldl_cons, max_self]
      exact foldl_max_replicate c m

theorem foldl_min_replicate (c : ℚ) : ∀ m : ℕ, (List.replicate m c).foldl min c = c
  | 0 => rfl
  | m + 1 => by
      rw [List.replicate_succ, List.foldl_cons, min_self]
      exact foldl_min_replicate c m

theorem listMax_replicate (n : ℕ) (c : ℚ) :
    listMax (List.replicate n c) = if n = 0 then 0 else c := by
  cases n with
  | zero => rfl
  | succ m =>
      rw [listMax, List.replicate_succ, List.headD_cons, List.foldl_cons, max_self,
        foldl_max_replicate]
      simp

theorem listMin_replicate (n : ℕ) (c : ℚ) :
    listMin (List.replicate n c) = if n = 0 then 0 else c := by
  cases n with
  | zero => rfl
  | succ m =>
      rw [listMin, List.replicate_succ, List.headD_cons, List.foldl_cons, min_self,
        foldl_min_replicate]
      simp

theorem listMax_eq_listMin_replicate (n : ℕ) (c : ℚ) :
    listMax (List.replicate n c) = listMin (List.replicate n c) := by
  rw [listMax_replicate, listMin_replicate]

theorem minmax_score_replicate (n : ℕ) (c x : ℚ) :
    minmax_score (List.replicate n c) x = 1 / 2 :=
  if_pos (listMax_eq_listMin_replicate n c)

/-- On any date with fewer than `w` observations every raw metric has been
`fillna`-ed to 0, so every fallback fires and the per-date loop writes the
numeric score 0.5 — for any weights and any ticker index. -/
theorem sos_val_early_date (price : ℕ → ℕ → ℚ) (numTickers w : ℕ) (wM wV wL : ℚ)
    (i t : ℕ) (hw : i + 1 < w) :
    sos_val price numTickers w wM wV wL i t = 1 / 2 := by
  have hmom : ∀ s, mom_raw price w i s = 0 := fun s => by
    rw [mom_raw, rolling_mean, if_pos hw]
  have hvol : ∀ s, vol_raw price w i s = 0 := fun s => by
    rw [vol_raw, rolling_vol, if_pos hw]
  rw [sos_val]
  simp only [hmom, hvol, List.map_const', List.length_range, minmax_score_replicate,
    listMax_eq_listMin_replicate, if_pos]

theorem find_pos_eq_none_iff (ps : List (ℕ × Position)) (t : ℕ) :
    find_pos ps t = none ↔ t ∉ ps.map Prod.fst := by
  induction ps with
  | nil => simp [find_pos]
  | cons hd tl ih =>
      obtain ⟨a, p⟩ := hd
      by_cases h : a = t
      · subst h
        simp [find_pos]
      · simp [find_pos, h, ih, Ne.symm h]

theorem mem_of_find_pos {ps : List (ℕ × Position)} {t : ℕ} {pos : Position}
    (h : find_pos ps t = some pos) : (t, pos) ∈ ps := by
  induction ps with
  | nil => simp [find_pos] at h
  | cons hd tl ih =>
      obtain ⟨a, p⟩ := hd
      by_cases ha : a = t
      · subst ha
        rw [find_pos, if_pos rfl] at h
        obtain rfl := Option.some.inj h
        exact List.mem_cons_self _ _
      · rw [find_pos, if_neg ha] at h
        exact List.mem_cons_of_mem _ (ih h)

theorem eq_of_mem_find_pos_nodup {ps : List (ℕ × Position)} {t : ℕ} {pos pos' : Position}
    (hnd : (ps.map Prod.fst).Nodup) (hf : find_pos ps t = some pos)
    (hm : (t, pos') ∈ ps) : pos' = pos := by
  induction ps with
  | nil => simp at hm
  | cons hd tl ih =>
      obtain ⟨a, p⟩ := hd
      rw [List.map_cons, List.nodup_cons] at hnd
      rcases List.mem_cons.mp hm with heq | hm'
      · obtain ⟨rfl, rfl⟩ := Prod.mk.injEq .. ▸ heq
        rw [find_pos, if_pos rfl] at hf
        exact Option.some.inj hf
      · have ha : a ≠ t := by
          rintro rfl
          exact hnd.1 (List.mem_map.mpr ⟨(a, pos'), hm', rfl⟩)
        rw [find_pos, if_neg ha] at hf
        exact ih hnd.2 hf hm'

theorem find_pos_append_left {ps : List (ℕ × Position)} {t : ℕ} {pos : Position}
    (h : find_pos ps t = some pos) (qs : List (ℕ × Position)) :
    find_pos (ps ++ qs) t = some pos := by
  induction ps with
  | nil => simp [find_pos] at h
  | cons hd tl ih =>
      obtain ⟨a, p⟩ := hd
      by_cases ha : a = t
      · rw [find_pos, if_pos ha] at h
        rw [List.cons_append, find_pos, if_pos ha]
        exact h
      · rw [find_pos, if_neg ha] at h
        rw [List.cons_append, find_pos, if_neg ha]
        exact ih h

theorem find_pos_append_none {ps qs : List (ℕ × Position)} {t : ℕ}
    (h : find_pos ps t = none) :
    find_pos (ps ++ qs) t = find_pos qs t := by
  induction ps with
  | nil => rfl
  | cons hd tl ih =>
      obtain ⟨a, p⟩ := hd
      by_cases ha : a = t
      · rw [find_pos, if_pos ha] at h
        exact absurd h (by simp)
      · rw [find_pos, if_neg ha] at h
        rw [List.cons_append, find_pos, if_neg ha]
        exact ih h

theorem pop_pos_fst_of_find {ps : List (ℕ × Position)} {t : ℕ} {pos : Position}
    (h : find_pos ps t = some pos) : (pop_pos ps t).1 = some pos := by
  induction ps with
  | nil => simp [find_pos] at h
  | cons hd tl ih =>
      obtain ⟨a, p⟩ := hd
      by_cases ha : a = t
      · rw [find_pos, if_pos ha] at h
        rw [pop_pos, if_pos ha]
        exact h
      · rw [find_pos, if_neg ha] at h
        rw [pop_pos, if_neg ha]
        exact ih h

theorem find_pos_pop_other {ps : List (ℕ × Position)} {x t : ℕ} (hxt : x ≠ t) :
    find_pos (pop_pos ps x).2 t = find_pos ps t := by
  induction ps with
  | nil => rfl
  | cons hd tl ih =>
      obtain ⟨a, p⟩ := hd
      by_cases ha : a = x
      · rw [pop_pos, if_pos ha]
        rw [find_pos, if_neg (ha ▸ hxt)]
      · rw [pop_pos, if_neg ha]
        by_cases hat : a = t
        · rw [find_pos, if_pos hat, find_pos, if_pos hat]
        · rw [find_pos, if_neg hat, find_pos, if_neg hat]
          exact ih

theorem pop_pos_keys_sublist (ps : List (ℕ × Position)) (t : ℕ) :
    ((pop_pos ps t).2.map Prod.fst).Sublist (ps.map Prod.fst) := by
  induction ps with
  | nil => simp [pop_pos]
  | cons hd tl ih =>
      obtain ⟨a, p⟩ := hd
      by_cases ha : a = t
      · rw [pop_pos, if_pos ha]
        exact (List.sublist_cons_self _ _)
      · rw [pop_pos, if_neg ha]
        exact List.Sublist.cons₂ _ ih

theorem pop_pos_length_le (ps : List (ℕ × Position)) (t : ℕ) :
    (pop_pos ps t).2.length ≤ ps.length := by
  have h := (pop_pos_keys_sublist ps t).length_le
  simpa using h

theorem Position.update_reclaimed_self {pos : Position}
    (h : pos.tactical_reclaimed = true) : { pos with tactical_reclaimed := true } = pos := by
  cases pos
  simp_all

theorem close_decide_fst_keys (today : ℤ) (pr mas : ℕ → Option ℚ) (rcw : ℤ) :
    ∀ ps : List (ℕ × Position),
      ((close_decide today pr mas rcw ps).1).map Prod.fst = ps.map Prod.fst := by
  intro ps
  induction ps with
  | nil => rfl
  | cons hd tl ih =>
      obtain ⟨t, pos⟩ := hd
      rw [close_decide]
      cases pr t with
      | none => simpa using ih
      | some price =>
          cases mas t with
          | none => simpa using ih
          | some ma =>
              by_cases htb : pos.tactical_black <;>
                simp only [htb, if_true, if_false, Bool.false_eq_true] <;>
                split_ifs <;> simpa using ih

theorem close_decide_fst_length (today : ℤ) (pr mas : ℕ → Option ℚ) (rcw : ℤ)
    (ps : List (ℕ × Position)) :
    ((close_decide today pr mas rcw ps).1).length = ps.length := by
  have h := congrArg List.length (close_decide_fst_keys today pr mas rcw ps)
  simpa using h

theorem close_decide_snd_mem (today : ℤ) (pr mas : ℕ → Option ℚ) (rcw : ℤ) :
    ∀ (ps : List (ℕ × Position)) (x : ℕ) (r : String),
      (x, r) ∈ (close_decide today pr mas rcw ps).2 →
      ∃ pos p m, (x, pos) ∈ ps ∧ pr x = some p ∧ mas x = some m ∧
        ((pos.tactical_black = true ∧ pos.tactical_reclaimed = false
            ∧ square_of p m ≠ "white" ∧ today - pos.opened_date ≥ rcw
            ∧ r = "tactical_reclaim_failed")
          ∨ (pos.tactical_black = false ∧ pos.initiated_on_square = "white"
            ∧ square_of p m = "black" ∧ r = "black_flip_stoploss")) := by
  intro ps
  induction ps with
  | nil => intro x r h; simp [close_decide] at h
  | cons hd tl ih =>
      obtain ⟨t, pos⟩ := hd
      intro x r h
      rw [close_decide] at h
      cases hp : pr t with
      | none =>
          rw [hp] at h
          obtain ⟨pos', p, m, hmem, hp', hm', hc⟩ := ih x r h
          exact ⟨pos', p, m, List.mem_cons_of_mem _ hmem, hp', hm', hc⟩
      | some price =>
          cases hm : mas t with
          | none =>
              rw [hp, hm] at h
              obtain ⟨pos', p, m, hmem, hp', hm', hc⟩ := ih x r h
              exact ⟨pos', p, m, List.mem_cons_of_mem _ hmem, hp', hm', hc⟩
          | some ma =>
              rw [hp, hm] at h
              dsimp only at h
              by_cases htb : pos.tactical_black
              · rw [if_pos htb] at h
                by_cases hw : square_of price ma = "white"
                · rw [if_pos hw] at h
                  obtain ⟨pos', p, m, hmem, hp', hm', hc⟩ := ih x r h
                  exact ⟨pos', p, m, List.mem_cons_of_mem _ hmem, hp', hm', hc⟩
                · rw [if_neg hw] at h
                  by_cases hq : today - pos.opened_date ≥ rcw ∧ pos.tactical_reclaimed = false
                  · rw [if_pos hq] at h
                    rcases List.mem_cons.mp h with heq | h'
                    · obtain ⟨rfl, rfl⟩ := Prod.mk.injEq .. ▸ heq
                      exact ⟨pos, price, ma, List.mem_cons_self _ _, hp, hm,
                        Or.inl ⟨htb, hq.2, hw, hq.1, rfl⟩⟩
                    · obtain ⟨pos', p, m, hmem, hp', hm', hc⟩ := ih x r h'
                      exact ⟨pos', p, m, List.mem_cons_of_mem _ hmem, hp', hm', hc⟩
                  · rw [if_neg hq] at h
                    obtain ⟨pos', p, m, hmem, hp', hm', hc⟩ := ih x r h
                    exact ⟨pos', p, m, List.mem_cons_of_mem _ hmem, hp', hm', hc⟩
              · rw [if_neg htb] at h
                by_cases hq : pos.initiated_on_square = "white" ∧ square_of price ma = "black"
                · rw [if_pos hq] at h
                  rcases List.mem_cons.mp h with heq | h'
                  · obtain ⟨rfl, rfl⟩ := Prod.mk.injEq .. ▸ heq
                    exact ⟨pos, price, ma, List.mem_cons_self _ _, hp, hm,
                      Or.inr ⟨Bool.not_eq_true _ ▸ htb, hq.1, hq.2, rfl⟩⟩
                  · obtain ⟨pos', p, m, hmem, hp', hm', hc⟩ := ih x r h'
                    exact ⟨pos', p, m, List.mem_cons_of_mem _ hmem, hp', hm', hc⟩
                · rw [if_neg hq] at h
                  obtain ⟨pos', p, m, hmem, hp', hm', hc⟩ := ih x r h
                  exact ⟨pos', p, m, List.mem_cons_of_mem _ hmem, hp', hm', hc⟩

theorem close_decide_snd_keys_sublist (today : ℤ) (pr mas : ℕ → Option ℚ) (rcw : ℤ) :
    ∀ ps : List (ℕ × Position),
      (((close_decide today pr mas rcw ps).2).map Prod.fst).Sublist (ps.map Prod.fst) := by
  intro ps
  induction ps with
  | nil => simp [close_decide]
  | cons hd tl ih =>
      obtain ⟨t, pos⟩ := hd
      rw [close_decide]
      cases pr t with
      | none => exact List.Sublist.trans (by simpa using ih) (List.sublist_cons_self _ _)
      | some price =>
          cases mas t with
          | none => exact List.Sublist.trans (by simpa using ih) (List.sublist_cons_self _ _)
          | some ma =>
              by_cases htb : pos.tactical_black <;>
                simp only [htb, if_true, if_false, Bool.false_eq_true] <;> split_ifs <;>
                dsimp only <;> simp only [List.map_cons] <;>
                first
                  | exact List.Sublist.trans (by simpa using ih) (List.sublist_cons_self _ _)
                  | exact List.Sublist.cons₂ t (by simpa using ih)

/-- A White-initiated, non-tactical position observed on Black today is
queued with reason `black_flip_stoploss`, and the decision pass leaves its
stored record untouched. -/
theorem close_decide_queues_blackflip {today : ℤ} {pr mas : ℕ → Option ℚ} {rcw : ℤ}
    {t : ℕ} {pos : Position} {p m : ℚ} :
    ∀ ps : List (ℕ × Position), find_pos ps t = some pos →
      pos.tactical_black = false → pos.initiated_on_square = "white" →
      pr t = some p → mas t = some m → square_of p m = "black" →
      (t, "black_flip_stoploss") ∈ (close_decide today pr mas rcw ps).2
        ∧ find_pos (close_decide today pr mas rcw ps).1 t = some pos := by
  intro ps
  induction ps with
  | nil => intro h; simp [find_pos] at h
  | cons hd tl ih =>
      obtain ⟨a, q⟩ := hd
      intro hf htb hi hp hm hsq
      by_cases ha : a = t
      · subst ha
        rw [find_pos, if_pos rfl] at hf
        obtain rfl := Option.some.inj hf
        rw [close_decide, hp, hm]
        dsimp only
        rw [if_neg (by simp [htb]), if_pos ⟨hi, hsq⟩]
        exact ⟨List.mem_cons_self _ _, by rw [find_pos, if_pos rfl]⟩
      · rw [find_pos, if_neg ha] at hf
        obtain ⟨hq, hfst⟩ := ih hf htb hi hp hm hsq
        rw [close_decide]
        cases pr a with
        | none => exact ⟨hq, by rw [find_pos, if_neg ha]; exact hfst⟩
        | some price =>
            cases mas a with
            | none => exact ⟨hq, by rw [find_pos, if_neg ha]; exact hfst⟩
            | some ma =>
                dsimp only
                by_cases hb : q.tactical_black = true <;>
                  simp only [hb, if_true, if_false, Bool.false_eq_true] <;> split_ifs <;>
                  first
                    | exact ⟨hq, by rw [find_pos, if_neg ha]; exact hfst⟩
                    | exact ⟨List.mem_cons_of_mem _ hq,
                        by rw [find_pos, if_neg ha]; exact hfst⟩

/-- A tactical position that has already reclaimed is never queued and its
record is preserved verbatim by the decision pass. -/
theorem close_decide_reclaimed_preserved {today : ℤ} {pr mas : ℕ → Option ℚ} {rcw : ℤ}
    {t : ℕ} {pos : Position} (ps : List (ℕ × Position))
    (hnd : (ps.map Prod.fst).Nodup) (hf : find_pos ps t = some pos)
    (htb : pos.tactical_black = true) (hrc : pos.tactical_reclaimed = true) :
    find_pos (close_decide today pr mas rcw ps).1 t = some pos
      ∧ ∀ r, (t, r) ∉ (close_decide today pr mas rcw ps).2 := by
  constructor
  · clear hnd
    induction ps with
    | nil => simp [find_pos] at hf
    | cons hd tl ih =>
        obtain ⟨a, q⟩ := hd
        by_cases ha : a = t
        · subst ha
          rw [find_pos, if_pos rfl] at hf
          obtain rfl := Option.some.inj hf
          rw [close_decide]
          cases pr a with
          | none => rw [find_pos, if_pos rfl]
          | some price =>
              cases mas a with
              | none => rw [find_pos, if_pos rfl]
              | some ma =>
                  dsimp only
                  rw [if_pos htb]
                  by_cases hw : square_of price ma = "white"
                  · rw [if_pos hw, find_pos, if_pos rfl,
                      Position.update_reclaimed_self hrc]
                  · rw [if_neg hw, if_neg (by simp [hrc]), find_pos, if_pos rfl]
        · rw [find_pos, if_neg ha] at hf
          have hfst := ih hf
          rw [close_decide]
          cases pr a with
          | none => rw [find_pos, if_neg ha]; exact hfst
          | some price =>
              cases mas a with
              | none => rw [find_pos, if_neg ha]; exact hfst
              | some ma =>
                  dsimp only
                  by_cases hb : q.tactical_black = true <;>
                    simp only [hb, if_true, if_false, Bool.false_eq_true] <;> split_ifs <;>
                    (rw [find_pos, if_neg ha]; exact hfst)
  · intro r hq
    obtain ⟨pos', p, m, hmem, _, _, hc⟩ :=
      close_decide_snd_mem today pr mas rcw ps t r hq
    obtain rfl := eq_of_mem_find_pos_nodup hnd hf hmem
    rcases hc with ⟨_, hrc', _, _, _⟩ | ⟨htb', _, _, _⟩
    · rw [hrc] at hrc'; exact Bool.noConfusion hrc'
    · rw [htb] at htb'; exact Bool.noConfusion htb'

/-- A tactical position observed on White today has its reclaim flag
latched by the decision pass and is not queued. -/
theorem close_decide_latches_white {today : ℤ} {pr mas : ℕ → Option ℚ} {rcw : ℤ}
    {t : ℕ} {pos : Position} {p m : ℚ} (ps : List (ℕ × Position))
    (hnd : (ps.map Prod.fst).Nodup) (hf : find_pos ps t = some pos)
    (htb : pos.tactical_black = true) (hp : pr t = some p) (hm : mas t = some m)
    (hw : square_of p m = "white") :
    find_pos (close_decide today pr mas rcw ps).1 t
        = some { pos with tactical_reclaimed := true }
      ∧ ∀ r, (t, r) ∉ (close_decide today pr mas rcw ps).2 := by
  constructor
  · clear hnd
    induction ps with
    | nil => simp [find_pos] at hf
    | cons hd tl ih =>
        obtain ⟨a, q⟩ := hd
        by_cases ha : a = t
        · subst ha
          rw [find_pos, if_pos rfl] at hf
          obtain rfl := Option.some.inj hf
          rw [close_decide, hp, hm]
          dsimp only
          rw [if_pos htb, if_pos hw, find_pos, if_pos rfl]
        · rw [find_pos, if_neg ha] at hf
          have hfst := ih hf
          rw [close_decide]
          cases pr a with
          | none => rw [find_pos, if_neg ha]; exact hfst
          | some price =>
              cases mas a with
              | none => rw [find_pos, if_neg ha]; exact hfst
              | some ma =>
                  dsimp only
                  by_cases hb : q.tactical_black = true <;>
                    simp only [hb, if_true, if_false, Bool.false_eq_true] <;> split_ifs <;>
                    (rw [find_pos, if_neg ha]; exact hfst)
  · intro r hq
    obtain ⟨pos', pp, mm, hmem, hp', hm', hc⟩ :=
      close_decide_snd_mem today pr mas rcw ps t r hq
    obtain rfl := eq_of_mem_find_pos_nodup hnd hf hmem
    obtain rfl : p = pp := by rw [hp] at hp'; exact Option.some.inj hp'
    obtain rfl : m = mm := by rw [hm] at hm'; exact Option.some.inj hm'
    rcases hc with ⟨_, _, hw', _, _⟩ | ⟨htb', _, _, _⟩
    · exact hw' hw
    · rw [htb] at htb'; exact Bool.noConfusion htb'

/-- Close execution only appends SELL records for queued tickers. -/
theorem exec_closes_trades_mono (np : ℕ → Option ℚ) (tm : ℤ) :
    ∀ (q : List (ℕ × String)) (st : BTState),
      ∃ ts, (exec_closes np tm q st).trades = st.trades ++ ts
        ∧ ∀ tr ∈ ts, tr.action = "SELL" ∧ tr.ticker ∈ q.map Prod.fst := by
  intro q
  induction q with
  | nil => intro st; exact ⟨[], by simp [exec_closes], by simp⟩
  | cons hd q' ih =>
      obtain ⟨x, rx⟩ := hd
      intro st
      rw [exec_closes]
      cases hpop : pop_pos st.positions x with
      | mk fst rest =>
          cases fst with
          | none =>
              obtain ⟨ts, hts, hall⟩ := ih st
              exact ⟨ts, hts, fun tr htr =>
                ⟨(hall tr htr).1, List.mem_cons_of_mem _ (hall tr htr).2⟩⟩
          | some pos =>
              cases hnp : np x with
              | none =>
                  obtain ⟨ts, hts, hall⟩ := ih st
                  exact ⟨ts, hts, fun tr htr =>
                    ⟨(hall tr htr).1, List.mem_cons_of_mem _ (hall tr htr).2⟩⟩
              | some ep =>
                  obtain ⟨ts, hts, hall⟩ := ih
                    { positions := rest,
                      inventory := recycle_piece st.inventory pos.piece_id (ep * pos.shares),
                      trades := st.trades ++ [sell_record x pos ep tm rx] }
                  refine ⟨sell_record x pos ep tm rx :: ts, ?_, ?_⟩
                  · rw [hts]
                    simp
                  · intro tr htr
                    rcases List.mem_cons.mp htr with rfl | htr'
                    · exact ⟨rfl, List.mem_cons_self _ _⟩
                    · exact ⟨(hall tr htr').1, List.mem_cons_of_mem _ (hall tr htr').2⟩

/-- Close execution does not touch positions whose ticker is not queued. -/
theorem exec_closes_find_not_mem (np : ℕ → Option ℚ) (tm : ℤ) {t : ℕ} :
    ∀ (q : List (ℕ × String)) (st : BTState), t ∉ q.map Prod.fst →
      find_pos (exec_closes np tm q st).positions t = find_pos st.positions t := by
  intro q
  induction q with
  | nil => intro st _; rfl
  | cons hd q' ih =>
      obtain ⟨x, rx⟩ := hd
      intro st hmem
      rw [List.map_cons] at hmem
      have hxt : x ≠ t := fun h => hmem (h ▸ List.mem_cons_self _ _)
      have hq' : t ∉ q'.map Prod.fst := fun h => hmem (List.mem_cons_of_mem _ h)
      rw [exec_closes]
      cases hpop : pop_pos st.positions x with
      | mk fst rest =>
          cases fst with
          | none => exact ih st hq'
          | some pos =>
              cases hnp : np x with
              | none => exact ih st hq'
              | some ep =>
                  rw [ih _ hq']
                  show find_pos rest t = _
                  have : rest = (pop_pos st.positions x).2 := by rw [hpop]
                  rw [this]
                  exact find_pos_pop_other hxt

/-- Close execution can only shrink the positions map, and its keys stay a
sublist of the input keys. -/
theorem exec_closes_keys_sublist (np : ℕ → Option ℚ) (tm : ℤ) :
    ∀ (q : List (ℕ × String)) (st : BTState),
      ((exec_closes np tm q st).positions.map Prod.fst).Sublist
        (st.positions.map Prod.fst) := by
  intro q
  induction q with
  | nil => intro st; exact List.Sublist.refl _
  | cons hd q' ih =>
      obtain ⟨x, rx⟩ := hd
      intro st
      rw [exec_closes]
      cases hpop : pop_pos st.positions x with
      | mk fst rest =>
          cases fst with
          | none => exact ih st
          | some pos =>
              cases hnp : np x with
              | none => exact ih st
              | some ep =>
                  refine List.Sublist.trans (ih _) ?_
                  show (rest.map Prod.fst).Sublist _
                  have : rest = (pop_pos st.positions x).2 := by rw [hpop]
                  rw [this]
                  exact pop_pos_keys_sublist st.positions x

theorem exec_closes_length_le (np : ℕ → Option ℚ) (tm : ℤ) (q : List (ℕ × String))
    (st : BTState) :
    (exec_closes np tm q st).positions.length ≤ st.positions.length := by
  have h := (exec_closes_keys_sublist np tm q st).length_le
  simpa using h

/-- A queued ticker with a defined execution price is closed exactly once:
the appended trades contain precisely one SELL for it, recorded at the
lookahead price and dated with the lookahead date. -/
theorem exec_closes_sell_emitted (np : ℕ → Option ℚ) (tm : ℤ) {t : ℕ} {reason : String}
    {pos : Position} {ep : ℚ} :
    ∀ (q : List (ℕ × String)) (st : BTState), (q.map Prod.fst).Nodup →
      (t, reason) ∈ q → find_pos st.positions t = some pos → np t = some ep →
      ∃ ts, (exec_closes np tm q st).trades = st.trades ++ ts
        ∧ ts.filter (fun tr => decide (tr.ticker = t ∧ tr.action = "SELL"))
          = [sell_record t pos ep tm reason] := by
  intro q
  induction q with
  | nil => intro st _ hmem; simp at hmem
  | cons hd q' ih =>
      obtain ⟨x, rx⟩ := hd
      intro st hnd hmem hf hnp
      rw [List.map_cons, List.nodup_cons] at hnd
      by_cases hx : x = t
      · subst hx
        have hrx : rx = reason := by
          rcases List.mem_cons.mp hmem with heq | hmem'
          · exact (Prod.mk.injEq .. ▸ heq).2.symm
          · exact absurd (List.mem_map.mpr ⟨(x, reason), hmem', rfl⟩) hnd.1
        subst hrx
        have hpp : pop_pos st.positions x = (some pos, (pop_pos st.positions x).2) := by
          rw [← pop_pos_fst_of_find hf]
        rw [exec_closes, hpp, hnp]
        set st' : BTState :=
          { positions := (pop_pos st.positions x).2,
            inventory := recycle_piece st.inventory pos.piece_id (ep * pos.shares),
            trades := st.trades ++ [sell_record x pos ep tm rx] } with hst'
        obtain ⟨ts', hts', hall⟩ := exec_closes_trades_mono np tm q' st'
        refine ⟨sell_record x pos ep tm rx :: ts', ?_, ?_⟩
        · rw [hts', hst']
          simp
        · rw [List.filter_cons]
          have hsell : decide ((sell_record x pos ep tm rx).ticker = x
              ∧ (sell_record x pos ep tm rx).action = "SELL") = true := by
            simp [sell_record]
          rw [if_pos hsell]
          have hnil : ts'.filter
              (fun tr => decide (tr.ticker = x ∧ tr.action = "SELL")) = [] := by
            rw [List.filter_eq_nil_iff]
            intro tr htr
            have hmem2 := (hall tr htr).2
            have hne : tr.ticker ≠ x := fun he => hnd.1 (he ▸ hmem2)
            simp [hne]
          rw [hnil]
      · have hmem' : (t, reason) ∈ q' := by
          rcases List.mem_cons.mp hmem with heq | hmem'
          · exact absurd (Prod.mk.injEq .. ▸ heq).1.symm hx
          · exact hmem'
        rw [exec_closes]
        cases hpop : pop_pos st.positions x with
        | mk fst rest =>
            cases fst with
            | none => exact ih st hnd.2 hmem' hf hnp
            | some pos' =>
                cases hnpx : np x with
                | none => exact ih st hnd.2 hmem' hf hnp
                | some ep' =>
                    have hrest : find_pos rest t = some pos := by
                      have : rest = (pop_pos st.positions x).2 := by rw [hpop]
                      rw [this, find_pos_pop_other hx]
                      exact hf
                    obtain ⟨ts', hts', hfil⟩ := ih
                      { positions := rest,
                        inventory := recycle_piece st.inventory pos'.piece_id (ep' * pos'.shares),
                        trades := st.trades ++ [sell_record x pos' ep' tm rx] }
                      hnd.2 hmem' hrest hnp
                    refine ⟨sell_record x pos' ep' tm rx :: ts', ?_, ?_⟩
                    · rw [hts']
                      simp
                    · rw [List.filter_cons]
                      have hne : decide ((sell_record x pos' ep' tm rx).ticker = t
                          ∧ (sell_record x pos' ep' tm rx).action = "SELL") = false := by
                        simp [sell_record, hx]
                      rw [hne]
                      exact hfil

/-- The deployment walk only APPENDS: the positions map grows by at most
`slots` new bindings whose tickers come from the candidate list, and the
appended trades are all BUY records of candidate tickers. -/
theorem open_go_spec (md : MarketData) (i : ℕ) :
    ∀ (cands : List Cand) (slots : ℤ) (st : BTState),
      ∃ ts ext, (open_go md i cands slots st).trades = st.trades ++ ts
        ∧ (open_go md i cands slots st).positions = st.positions ++ ext
        ∧ (∀ tr ∈ ts, tr.action = "BUY" ∧ tr.ticker ∈ cands.map Cand.ticker)
        ∧ (∀ x ∈ ext.map Prod.fst, x ∈ cands.map Cand.ticker)
        ∧ ext.length ≤ slots.toNat := by
  intro cands
  induction cands with
  | nil =>
      intro slots st
      exact ⟨[], [], by simp [open_go], by simp [open_go], by simp, by simp, by simp⟩
  | cons c cs ih =>
      intro slots st
      rw [open_go]
      by_cases hslots : slots ≤ 0
      · rw [if_pos hslots]
        exact ⟨[], [], by simp, by simp, by simp, by simp, by simp⟩
      · rw [if_neg hslots]
        have hweaken : ∀ st', (∃ ts ext,
            (open_go md i cs slots st').trades = st'.trades ++ ts
            ∧ (open_go md i cs slots st').positions = st'.positions ++ ext
            ∧ (∀ tr ∈ ts, tr.action = "BUY" ∧ tr.ticker ∈ cs.map Cand.ticker)
            ∧ (∀ x ∈ ext.map Prod.fst, x ∈ cs.map Cand.ticker)
            ∧ ext.length ≤ slots.toNat) →
            st' = st →
            ∃ ts ext, (open_go md i cs slots st').trades = st.trades ++ ts
            ∧ (open_go md i cs slots st').positions = st.positions ++ ext
            ∧ (∀ tr ∈ ts, tr.action = "BUY" ∧ tr.ticker ∈ (c :: cs).map Cand.ticker)
            ∧ (∀ x ∈ ext.map Prod.fst, x ∈ (c :: cs).map Cand.ticker)
            ∧ ext.length ≤ slots.toNat := by
          rintro st' ⟨ts, ext, h1, h2, h3, h4, h5⟩ rfl
          exact ⟨ts, ext, h1, h2,
            fun tr htr => ⟨(h3 tr htr).1, List.mem_cons_of_mem _ (h3 tr htr).2⟩,
            fun x hx => List.mem_cons_of_mem _ (h4 x hx), h5⟩
        have hopen : ∀ (newpos : Position) (newtr : TradeRec) (inv' : List Piece),
            newtr.action = "BUY" → newtr.ticker = c.ticker →
            ∃ ts ext, (open_go md i cs (slots - 1)
                ⟨st.positions ++ [(c.ticker, newpos)], inv', st.trades ++ [newtr]⟩).trades
                  = st.trades ++ ts
              ∧ (open_go md i cs (slots - 1)
                ⟨st.positions ++ [(c.ticker, newpos)], inv', st.trades ++ [newtr]⟩).positions
                  = st.positions ++ ext
              ∧ (∀ tr ∈ ts, tr.action = "BUY"
                  ∧ tr.ticker ∈ (c :: cs).map Cand.ticker)
              ∧ (∀ x ∈ ext.map Prod.fst,
                  x ∈ (c :: cs).map Cand.ticker)
              ∧ ext.length ≤ slots.toNat := by
          intro newpos newtr inv' hact htick
          obtain ⟨ts, ext, h1, h2, h3, h4, h5⟩ := ih (slots - 1)
            ⟨st.positions ++ [(c.ticker, newpos)], inv', st.trades ++ [newtr]⟩
          refine ⟨newtr :: ts, (c.ticker, newpos) :: ext,
            by rw [h1]; simp, by rw [h2]; simp, ?_, ?_, ?_⟩
          · intro tr htr
            rcases List.mem_cons.mp htr with rfl | htr'
            · exact ⟨hact, by rw [htick]; exact List.mem_cons_self _ _⟩
            · exact ⟨(h3 tr htr').1, List.mem_cons_of_mem _ (h3 tr htr').2⟩
          · intro x hx
            rcases List.mem_cons.mp hx with rfl | hx'
            · exact List.mem_cons_self _ _
            · exact List.mem_cons_of_mem _ (h4 x hx')
          · have : (0 : ℤ) < slots := lt_of_not_ge hslots
            have h6 : (slots - 1).toNat + 1 ≤ slots.toNat := by omega
            simpa using le_trans (Nat.succ_le_succ h5) h6
        by_cases hw : c.square = "white"
        · rw [if_pos hw]
          cases get_best_piece_for_rank st.inventory (map_sos_to_tile c.sos).1 with
          | none => exact hweaken st (ih slots st) rfl
          | some piece =>
              cases md.price (i + 1) c.ticker with
              | none => exact hweaken st (ih slots st) rfl
              | some ep =>
                  dsimp only
                  by_cases hep : ep ≤ 0
                  · rw [if_pos hep]; exact hweaken st (ih slots st) rfl
                  · rw [if_neg hep]
                    by_cases hsh : (⌊piece.value / ep⌋ : ℤ) ≤ 0
                    · rw [if_pos hsh]; exact hweaken st (ih slots st) rfl
                    · rw [if_neg hsh]
                      exact hopen (white_position ⌊piece.value / ep⌋ ep (md.date i) piece)
                        (buy_record c.ticker ep ⌊piece.value / ep⌋ (md.date (i + 1))
                          "deploy_on_white" "white" false)
                        (assign_piece st.inventory piece.id) rfl rfl
        · rw [if_neg hw]
          by_cases hb : c.square = "black"
          · rw [if_pos hb]
            cases get_tactical_piece st.inventory with
            | none => exact hweaken st (ih slots st) rfl
            | some piece =>
                cases md.price (i + 1) c.ticker with
                | none => exact hweaken st (ih slots st) rfl
                | some ep =>
                    dsimp only
                    by_cases hep : ep ≤ 0
                    · rw [if_pos hep]; exact hweaken st (ih slots st) rfl
                    · rw [if_neg hep]
                      by_cases hsh : (⌊piece.value / ep⌋ : ℤ) ≤ 0
                      · rw [if_pos hsh]; exact hweaken st (ih slots st) rfl
                      · rw [if_neg hsh]
                        exact hopen (black_position ⌊piece.value / ep⌋ ep (md.date i) piece)
                          (buy_record c.ticker ep ⌊piece.value / ep⌋ (md.date (i + 1))
                            "tactical_black_entry" "black" true)
                          (assign_piece st.inventory piece.id) rfl rfl
          · rw [if_neg hb]
            exact hweaken st (ih slots st) rfl

/-- The deployment walk keeps the position keys distinct, provided the
candidate tickers are distinct and none of them is already held. -/
theorem open_go_keys_nodup (md : MarketData) (i : ℕ) :
    ∀ (cands : List Cand) (slots : ℤ) (st : BTState),
      (st.positions.map Prod.fst).Nodup → (cands.map Cand.ticker).Nodup →
      (∀ c ∈ cands, find_pos st.positions c.ticker = none) →
      ((open_go md i cands slots st).positions.map Prod.fst).Nodup := by
  intro cands
  induction cands with
  | nil => intro slots st hnd _ _; simpa [open_go] using hnd
  | cons c cs ih =>
      intro slots st hnd hcnd hfree
      rw [open_go]
      rw [List.map_cons, List.nodup_cons] at hcnd
      have hskip : ((open_go md i cs slots st).positions.map Prod.fst).Nodup :=
        ih slots st hnd hcnd.2 fun c' hc' => hfree c' (List.mem_cons_of_mem _ hc')
      by_cases hslots : slots ≤ 0
      · rw [if_pos hslots]; exact hnd
      · rw [if_neg hslots]
        have hopen : ∀ (newpos : Position) (inv' : List Piece) (tr' : List TradeRec),
            ((open_go md i cs (slots - 1)
              ⟨st.positions ++ [(c.ticker, newpos)], inv', tr'⟩).positions.map
                Prod.fst).Nodup := by
          intro newpos inv' tr'
          refine ih (slots - 1) _ ?_ hcnd.2 ?_
          · show ((st.positions ++ [(c.ticker, newpos)]).map Prod.fst).Nodup
            rw [List.map_append]
            refine List.Nodup.append hnd (by simp) ?_
            intro x hx hx'
            rw [List.map_singleton, List.mem_singleton] at hx'
            subst hx'
            exact (find_pos_eq_none_iff st.positions c.ticker).mp
              (hfree c (List.mem_cons_self _ _)) hx
          · intro c' hc'
            show find_pos (st.positions ++ [(c.ticker, newpos)]) c'.ticker = none
            rw [find_pos_append_none (hfree c' (List.mem_cons_of_mem _ hc'))]
            have hne : c.ticker ≠ c'.ticker := fun he =>
              hcnd.1 (he ▸ List.mem_map.mpr ⟨c', hc', rfl⟩)
            rw [find_pos, if_neg hne]
            rfl
        by_cases hw : c.square = "white"
        · rw [if_pos hw]
          cases get_best_piece_for_rank st.inventory (map_sos_to_tile c.sos).1 with
          | none => exact hskip
          | some piece =>
              cases md.price (i + 1) c.ticker with
              | none => exact hskip
              | some ep =>
                  dsimp only
                  by_cases hep : ep ≤ 0
                  · rw [if_pos hep]; exact hskip
                  · rw [if_neg hep]
                    by_cases hsh : (⌊piece.value / ep⌋ : ℤ) ≤ 0
                    · rw [if_pos hsh]; exact hskip
                    · rw [if_neg hsh]
                      exact hopen _ _ _
        · rw [if_neg hw]
          by_cases hb : c.square = "black"
          · rw [if_pos hb]
            cases get_tactical_piece st.inventory with
            | none => exact hskip
            | some piece =>
                cases md.price (i + 1) c.ticker with
                | none => exact hskip
                | some ep =>
                    dsimp only
                    by_cases hep : ep ≤ 0
                    · rw [if_pos hep]; exact hskip
                    · rw [if_neg hep]
                      by_cases hsh : (⌊piece.value / ep⌋ : ℤ) ≤ 0
                      · rw [if_pos hsh]; exact hskip
                      · rw [if_neg hsh]
                        exact hopen _ _ _
          · rw [if_neg hb]
            exact hskip

theorem mem_insert_cand (a x : Cand) : ∀ l : List Cand,
    (x ∈ insert_cand a l ↔ x = a ∨ x ∈ l) := by
  intro l
  induction l with
  | nil => simp [insert_cand]
  | cons b bs ih =>
      rw [insert_cand]
      split_ifs
      · simp
      · rw [List.mem_cons, ih, List.mem_cons]
        tauto

theorem mem_sort_cands (x : Cand) : ∀ l : List Cand, (x ∈ sort_cands l ↔ x ∈ l) := by
  intro l
  induction l with
  | nil => simp [sort_cands]
  | cons a as ih =>
      rw [sort_cands, mem_insert_cand, ih, List.mem_cons]

theorem insert_cand_perm (a : Cand) : ∀ l : List Cand, (insert_cand a l).Perm (a :: l) := by
  intro l
  induction l with
  | nil => exact List.Perm.refl _
  | cons b bs ih =>
      rw [insert_cand]
      split_ifs
      · exact List.Perm.refl _
      · exact List.Perm.trans (List.Perm.cons b ih) (List.Perm.swap a b bs)

theorem sort_cands_perm : ∀ l : List Cand, (sort_cands l).Perm l := by
  intro l
  induction l with
  | nil => exact List.Perm.refl _
  | cons a as ih =>
      rw [sort_cands]
      exact List.Perm.trans (insert_cand_perm a (sort_cands as)) (List.Perm.cons a ih)

/-- Every candidate is an unheld ticker of the input universe. -/
theorem build_cands_spec (md : MarketData) (i : ℕ) (ps : List (ℕ × Position)) :
    ∀ c ∈ build_cands md i ps, find_pos ps c.ticker = none ∧ c.ticker ∈ md.tickers := by
  intro c hc
  rw [build_cands] at hc
  obtain ⟨t, ht, hf⟩ := List.mem_filterMap.mp hc
  by_cases hheld : (find_pos ps t).isSome
  · rw [if_pos hheld] at hf
    exact Option.noConfusion hf
  · rw [if_neg hheld] at hf
    have hfn : find_pos ps t = none := Option.not_isSome_iff_eq_none.mp hheld
    cases hp : md.price i t with
    | none => rw [hp] at hf; exact Option.noConfusion hf
    | some price =>
        cases hm : md.ma i t with
        | none => rw [hp, hm] at hf; exact Option.noConfusion hf
        | some ma =>
            cases hs : md.sos i t with
            | none => rw [hp, hm, hs] at hf; exact Option.noConfusion hf
            | some s =>
                rw [hp, hm, hs] at hf
                obtain rfl := Option.some.inj hf
                exact ⟨hfn, ht⟩

theorem filterMap_ticker_sublist (f : ℕ → Option Cand)
    (hf : ∀ t c, f t = some c → c.ticker = t) :
    ∀ l : List ℕ, ((l.filterMap f).map Cand.ticker).Sublist l := by
  intro l
  induction l with
  | nil => simp
  | cons t ts ih =>
      rw [List.filterMap_cons]
      cases hft : f t with
      | none => exact List.Sublist.trans ih (List.sublist_cons_self _ _)
      | some c =>
          rw [List.map_cons, hf t c hft]
          exact List.Sublist.cons₂ t ih

/-- Candidate tickers are distinct whenever the configured tickers are. -/
theorem build_cands_tickers_nodup (md : MarketData) (i : ℕ) (ps : List (ℕ × Position))
    (hnd : md.tickers.Nodup) : ((build_cands md i ps).map Cand.ticker).Nodup := by
  refine List.Nodup.sublist ?_ hnd
  rw [build_cands]
  refine filterMap_ticker_sublist _ ?_ md.tickers
  intro t c hf
  by_cases hheld : (find_pos ps t).isSome
  · rw [if_pos hheld] at hf
    exact Option.noConfusion hf
  · rw [if_neg hheld] at hf
    cases hp : md.price i t with
    | none => rw [hp] at hf; exact Option.noConfusion hf
    | some price =>
        cases hm : md.ma i t with
        | none => rw [hp, hm] at hf; exact Option.noConfusion hf
        | some ma =>
            cases hs : md.sos i t with
            | none => rw [hp, hm, hs] at hf; exact Option.noConfusion hf
            | some s =>
                rw [hp, hm, hs] at hf
                obtain rfl := Option.some.inj hf
                rfl

theorem not_mem_map_fst_of_forall {q : List (ℕ × String)} {t : ℕ}
    (h : ∀ r, (t, r) ∉ q) : t ∉ q.map Prod.fst := by
  intro hmem
  obtain ⟨⟨a, b⟩, hab, he⟩ := List.mem_map.mp hmem
  obtain rfl : a = t := he
  exact h b hab

/-- A tactical position whose reclaim flag is latched survives a whole day
step untouched, the key set stays duplicate-free, and no trade at all is
recorded for its ticker. -/
theorem day_step_reclaimed_preserved (md : MarketData) (rcw : ℤ) (maxp i : ℕ)
    {t : ℕ} {pos : Position} (st : BTState) (hticknd : md.tickers.Nodup)
    (hnd : (st.positions.map Prod.fst).Nodup)
    (hf : find_pos st.positions t = some pos)
    (htb : pos.tactical_black = true) (hrc : pos.tactical_reclaimed = true) :
    find_pos (day_step md rcw maxp i st).positions t = some pos
      ∧ ((day_step md rcw maxp i st).positions.map Prod.fst).Nodup
      ∧ ∃ ts, (day_step md rcw maxp i st).trades = st.trades ++ ts
          ∧ ∀ tr ∈ ts, tr.ticker ≠ t := by
  obtain ⟨hf1, hq⟩ := @close_decide_reclaimed_preserved (md.date i)
    (md.price i) (md.ma i) rcw t pos st.positions hnd hf htb hrc
  rw [day_step]
  set r := close_decide (md.date i) (md.price i) (md.ma i) rcw st.positions with hr
  set st1 : BTState := { st with positions := r.1 } with hst1
  have hnd1 : (st1.positions.map Prod.fst).Nodup := by
    rw [hst1]
    show (r.1.map Prod.fst).Nodup
    rw [hr, close_decide_fst_keys]
    exact hnd
  have hqf : t ∉ r.2.map Prod.fst := not_mem_map_fst_of_forall hq
  set st2 := exec_closes (md.price (i + 1)) (md.date (i + 1)) r.2 st1 with hst2
  have hf2 : find_pos st2.positions t = some pos := by
    rw [hst2, exec_closes_find_not_mem _ _ _ _ hqf]
    exact hf1
  have hnd2 : (st2.positions.map Prod.fst).Nodup :=
    (exec_closes_keys_sublist _ _ _ _).nodup hnd1
  obtain ⟨ts1, hts1, hall1⟩ := exec_closes_trades_mono (md.price (i + 1)) (md.date (i + 1)) r.2 st1
  have hts1' : st2.trades = st.trades ++ ts1 := by rw [hst2, hts1]
  have hall1' : ∀ tr ∈ ts1, tr.ticker ≠ t := by
    intro tr htr he
    exact hqf (he ▸ (hall1 tr htr).2)
  by_cases hslots : ((maxp : ℤ) - st2.positions.length) > 0
  · rw [if_pos hslots]
    obtain ⟨ts2, ext, htr2, hpos2, hall2, hext2, _⟩ :=
      open_go_spec md i (sort_cands (build_cands md i st2.positions))
        ((maxp : ℤ) - st2.positions.length) st2
    have hcand_ne : ∀ x ∈ (sort_cands (build_cands md i st2.positions)).map Cand.ticker,
        x ≠ t := by
      intro x hx he
      obtain ⟨c, hc, hcx⟩ := List.mem_map.mp hx
      rw [mem_sort_cands] at hc
      have := (build_cands_spec md i st2.positions c hc).1
      rw [hcx, he] at this
      rw [hf2] at this
      exact Option.noConfusion this
    refine ⟨?_, ?_, ts1 ++ ts2, ?_, ?_⟩
    · rw [hpos2]
      exact find_pos_append_left hf2 ext
    · refine open_go_keys_nodup md i _ _ _ hnd2 ?_ ?_
      · have hperm := (sort_cands_perm (build_cands md i st2.positions)).map Cand.ticker
        exact hperm.nodup_iff.mpr (build_cands_tickers_nodup md i st2.positions hticknd)
      · intro c hc
        rw [mem_sort_cands] at hc
        exact (build_cands_spec md i st2.positions c hc).1
    · rw [htr2, hts1']
      simp
    · intro tr htr
      rcases List.mem_append.mp htr with h1 | h2
      · exact hall1' tr h1
      · exact hcand_ne tr.ticker (hall2 tr h2).2
  · rw [if_neg hslots]
    exact ⟨hf2, hnd2, ts1, hts1', hall1'⟩

/-- One day step never pushes the number of open positions above the
configured maximum. -/
theorem day_step_count (md : MarketData) (rcw : ℤ) (maxp i : ℕ) (st : BTState)
    (h : st.positions.length ≤ maxp) :
    (day_step md rcw maxp i st).positions.length ≤ maxp := by
  rw [day_step]
  set r := close_decide (md.date i) (md.price i) (md.ma i) rcw st.positions with hr
  set st1 : BTState := { st with positions := r.1 } with hst1
  have h1 : st1.positions.length = st.positions.length := by
    rw [hst1]
    show r.1.length = _
    rw [hr]
    exact close_decide_fst_length _ _ _ _ _
  set st2 := exec_closes (md.price (i + 1)) (md.date (i + 1)) r.2 st1 with hst2
  have h2 : st2.positions.length ≤ st.positions.length := by
    rw [hst2, ← h1]
    exact exec_closes_length_le _ _ _ _
  by_cases hslots : ((maxp : ℤ) - st2.positions.length) > 0
  · rw [if_pos hslots]
    obtain ⟨ts2, ext, _, hpos2, _, _, hlen⟩ :=
      open_go_spec md i (sort_cands (build_cands md i st2.positions))
        ((maxp : ℤ) - st2.positions.length) st2
    rw [hpos2, List.length_append]
    omega
  · rw [if_neg hslots]
    omega

/-- The whole day loop keeps the position count within the maximum. -/
theorem run_days_count (md : MarketData) (rcw : ℤ) (maxp : ℕ) :
    ∀ (n i : ℕ) (st : BTState), st.positions.length ≤ maxp →
      (run_days md rcw maxp i n st).positions.length ≤ maxp := by
  intro n
  induction n with
  | zero => intro i st h; exact h
  | succ m ih =>
      intro i st h
      rw [run_days]
      exact ih (i + 1) _ (day_step_count md rcw maxp i st h)

/-- The multi-day analogue of `day_step_reclaimed_preserved`. -/
theorem run_days_reclaimed_preserved (md : MarketData) (rcw : ℤ) (maxp : ℕ)
    {t : ℕ} {pos : Position} (hticknd : md.tickers.Nodup) :
    ∀ (n i : ℕ) (st : BTState), (st.positions.map Prod.fst).Nodup →
      find_pos st.positions t = some pos →
      pos.tactical_black = true → pos.tactical_reclaimed = true →
      find_pos (run_days md rcw maxp i n st).positions t = some pos
        ∧ ((run_days md rcw maxp i n st).positions.map Prod.fst).Nodup
        ∧ ∃ ts, (run_days md rcw maxp i n st).trades = st.trades ++ ts
            ∧ ∀ tr ∈ ts, tr.ticker ≠ t := by
  intro n
  induction n with
  | zero =>
      intro i st hnd hf htb hrc
      exact ⟨hf, hnd, [], by simp [run_days], by simp⟩
  | succ m ih =>
      intro i st hnd hf htb hrc
      obtain ⟨hf', hnd', ts1, hts1, hall1⟩ :=
        day_step_reclaimed_preserved md rcw maxp i st hticknd hnd hf htb hrc
      rw [run_days]
      obtain ⟨hf'', hnd'', ts2, hts2, hall2⟩ := ih (i + 1) _ hnd' hf' htb hrc
      refine ⟨hf'', hnd'', ts1 ++ ts2, ?_, ?_⟩
      · rw [hts2, hts1]
        simp
      · intro tr htr
        rcases List.mem_append.mp htr with h1 | h2
        · exact hall1 tr h1
        · exact hall2 tr h2

/-- The end-of-run walk only appends trades. -/
theorem final_close_trades_mono (lp : ℕ → Option ℚ) (ld : ℤ) :
    ∀ (snap : List (ℕ × Position)) (st : BTState),
      ∃ ts, (final_close lp ld snap st).trades = st.trades ++ ts := by
  intro snap
  induction snap with
  | nil => intro st; exact ⟨[], by simp [final_close]⟩
  | cons hd rest ih =>
      obtain ⟨x, pos⟩ := hd
      intro st
      rw [final_close]
      cases lp x with
      | none => exact ih st
      | some ep =>
          obtain ⟨ts, hts⟩ := ih
            { positions := (pop_pos st.positions x).2,
              inventory := recycle_piece st.inventory pos.piece_id (ep * pos.shares),
              trades := st.trades ++ [sell_record x pos ep ld "end_of_sim"] }
          exact ⟨sell_record x pos ep ld "end_of_sim" :: ts, by rw [hts]; simp⟩

/-- Every snapshotted position with a defined last price is force-closed
with reason `end_of_sim` at the final date's price. -/
theorem final_close_emits (lp : ℕ → Option ℚ) (ld : ℤ) {t : ℕ} {pos : Position} {ep : ℚ} :
    ∀ (snap : List (ℕ × Position)) (st : BTState), (t, pos) ∈ snap → lp t = some ep →
      sell_record t pos ep ld "end_of_sim" ∈ (final_close lp ld snap st).trades := by
  intro snap
  induction snap with
  | nil => intro st h; simp at h
  | cons hd rest ih =>
      obtain ⟨x, q⟩ := hd
      intro st hmem hlp
      rcases List.mem_cons.mp hmem with heq | hmem'
      · obtain ⟨rfl, rfl⟩ := Prod.mk.injEq .. ▸ heq
        rw [final_close, hlp]
        obtain ⟨ts, hts⟩ := final_close_trades_mono lp ld rest
          { positions := (pop_pos st.positions t).2,
            inventory := recycle_piece st.inventory pos.piece_id (ep * pos.shares),
            trades := st.trades ++ [sell_record t pos ep ld "end_of_sim"] }
        rw [hts]
        simp
      · rw [final_close]
        cases lp x with
        | none => exact ih st hmem' hlp
        | some ep' => exact ih _ hmem' hlp

theorem final_close_length_le (lp : ℕ → Option ℚ) (ld : ℤ) :
    ∀ (snap : List (ℕ × Position)) (st : BTState),
      (final_close lp ld snap st).positions.length ≤ st.positions.length := by
  intro snap
  induction snap with
  | nil => intro st; exact le_refl _
  | cons hd rest ih =>
      obtain ⟨x, q⟩ := hd
      intro st
      rw [final_close]
      cases lp x with
      | none => exact ih st
      | some ep =>
          refine le_trans (ih _) ?_
          show (pop_pos st.positions x).2.length ≤ _
          exact pop_pos_length_le st.positions x

/-- `recycle_piece` ignores its `returned_value` argument (the source body
never reads it). -/
theorem recycle_rv_irrel : ∀ (inv : List Piece) (pid : ℕ) (rv rv' : ℚ),
    recycle_piece inv pid rv = recycle_piece inv pid rv'
  | [], _, _, _ => rfl
  | p :: ps, pid, rv, rv' => by
      by_cases h : p.id = pid
      · rw [recycle_piece, recycle_piece, if_pos h, if_pos h]
      · rw [recycle_piece, recycle_piece, if_neg h, if_neg h,
          recycle_rv_irrel ps pid rv rv']

theorem pool_value_nil : pool_value [] = 0 := rfl

theorem pool_value_cons (p : Piece) (ps : List Piece) :
    pool_value (p :: ps) = p.value + pool_value ps := by
  simp [pool_value]

theorem pool_value_assign (inv : List Piece) (pid : ℕ) :
    pool_value (assign_piece inv pid) = pool_value inv := by
  induction inv with
  | nil => rfl
  | cons p ps ih =>
      by_cases h : p.id = pid
      · simp [assign_piece, h, pool_value_cons]
      · simp [assign_piece, h, pool_value_cons, ih]

theorem pool_value_recycle (inv : List Piece) (pid : ℕ) (rv : ℚ) :
    pool_value (recycle_piece inv pid rv) = pool_value inv := by
  induction inv with
  | nil => rfl
  | cons p ps ih =>
      by_cases h : p.id = pid
      · simp [recycle_piece, h, pool_value_cons]
      · simp [recycle_piece, h, pool_value_cons, ih]

/-! # Claim theorems -/

/-- C2: `get_best_piece_for_rank` returns, for every pool state, an
unassigned unit of globally maximal point value (or `none` exactly when
every unit is assigned), and its result is the same for every rank
argument: the rank does not bias selection. -/
theorem C2_acquire_for_rank_ignores_rank :
    (∀ (inv : List Piece) (r₁ r₂ : ℕ),
        get_best_piece_for_rank inv r₁ = get_best_piece_for_rank inv r₂)
    ∧ (∀ (inv : List Piece) (r : ℕ),
        get_best_piece_for_rank inv r = none ↔ ∀ p ∈ inv, p.assigned = true)
    ∧ (∀ (inv : List Piece) (r : ℕ) (p : Piece),
        get_best_piece_for_rank inv r = some p →
          p ∈ inv ∧ p.assigned = false ∧
            ∀ q ∈ inv, q.assigned = false → q.PV ≤ p.PV) := by
  refine ⟨fun inv r₁ r₂ => rfl, fun inv r => ?_, fun inv r p h => ?_⟩
  · rw [get_best_piece_for_rank, List.argmax_eq_none, List.filter_eq_nil_iff]
    simp
  · have hmem : p ∈ inv.filter fun q => !q.assigned := List.argmax_mem h
    rw [List.mem_filter] at hmem
    refine ⟨hmem.1, by simpa using hmem.2, fun q hq hqa => ?_⟩
    exact List.le_of_mem_argmax (List.mem_filter.mpr ⟨hq, by simp [hqa]⟩) h

/-- C2 witness: on the fresh 3900 pool the selection is rank-independent
and returns the (unassigned, maximal point-value) Queen; on the fully
assigned pool it returns `none`. -/
theorem C2_acquire_for_rank_ignores_rank_witness :
    get_best_piece_for_rank (build_pieces 3900) 1 = get_best_piece_for_rank (build_pieces 3900) 8
    ∧ get_best_piece_for_rank all_assigned_pool 3 = none
    ∧ ∃ p, get_best_piece_for_rank (build_pieces 3900) 2 = some p
        ∧ p ∈ build_pieces 3900 ∧ p.assigned = false
        ∧ ∀ q ∈ build_pieces 3900, q.assigned = false → q.PV ≤ p.PV := by
  refine ⟨C2_acquire_for_rank_ignores_rank.1 (build_pieces 3900) 1 8,
    (C2_acquire_for_rank_ignores_rank.2.1 all_assigned_pool 3).mpr (by decide), ?_⟩
  have hne : get_best_piece_for_rank (build_pieces 3900) 2 ≠ none := by
    rw [Ne, C2_acquire_for_rank_ignores_rank.2.1 (build_pieces 3900) 2]
    decide
  obtain ⟨p, hp⟩ := Option.ne_none_iff_exists'.mp hne
  exact ⟨p, hp, C2_acquire_for_rank_ignores_rank.2.2 (build_pieces 3900) 2 p hp⟩

/-- C3: the claim says `acquire_tactical` draws only from the two smallest
size classes and never returns a unit of point value 5 or 9.  The
`chess_framework.py` implementation (which filters to Pawns/Knights)
satisfies this, but the `chess_backtester_single_file.py` implementation —
the one the backtest loop actually calls — has no class filter: on the pool
state where only a Rook (and the Queen) are unassigned it returns the
PV-5 Rook, which the framework version (correctly per the claim) refuses. -/
theorem C3_tactical_piece_missing_class_filter :
    (get_tactical_piece c3_pool).map Piece.PV = some 5
    ∧ (get_tactical_piece c3_pool).map Piece.ptype = some "Rook"
    ∧ get_tactical_piece_framework c3_pool = none
    ∧ (get_tactical_piece_framework (build_pieces 3900)).map Piece.PV = some 1
    ∧ (get_tactical_piece_framework (build_pieces 3900)).map Piece.ptype = some "Pawn" := by
  refine ⟨by decide, by decide, by decide, by decide, by decide⟩

/-- C5: a freshly built pool has exactly 15 units with point values
9,5,5,3,3,3,3,1,…,1 (classes Queen×1, Rook×2, Bishop×2, Knight×2, Pawn×8),
each valued `PV * B / 39`, their values summing exactly to the sub-budget
`B`; the 3900 pool carries the values 900, 500×2, 300×4, 100×8; and the
value sum of any pool state is invariant under `assign_piece` /
`recycle_piece`. -/
theorem C5_pool_construction_and_value_invariant :
    ∀ B : ℚ, 0 < B →
      (build_pieces B).length = 15
      ∧ (build_pieces B).map Piece.PV = [9, 5, 5, 3, 3, 3, 3, 1, 1, 1, 1, 1, 1, 1, 1]
      ∧ (build_pieces B).map Piece.ptype =
          ["Queen", "Rook", "Rook", "Bishop", "Bishop", "Knight", "Knight",
            "Pawn", "Pawn", "Pawn", "Pawn", "Pawn", "Pawn", "Pawn", "Pawn"]
      ∧ (∀ p ∈ build_pieces B, p.value = (p.PV : ℚ) * (B / 39))
      ∧ pool_value (build_pieces B) = B
      ∧ (build_pieces 3900).map Piece.value =
          [900, 500, 500, 300, 300, 300, 300, 100, 100, 100, 100, 100, 100, 100, 100]
      ∧ (∀ (inv : List Piece) (pid : ℕ), pool_value (assign_piece inv pid) = pool_value inv)
      ∧ (∀ (inv : List Piece) (pid : ℕ) (rv : ℚ),
          pool_value (recycle_piece inv pid rv) = pool_value inv) := by
  intro B _hB
  refine ⟨rfl, rfl, rfl, ?_, ?_, ?_, pool_value_assign, pool_value_recycle⟩
  · intro p hp
    rw [build_pieces_eq] at hp
    fin_cases hp <;> norm_num [TOTAL_POINTS]
  · show ((build_pieces B).map Piece.value).sum = B
    rw [build_pieces_eq]
    norm_num [TOTAL_POINTS]
    ring
  · rw [build_pieces_eq]
    norm_num [TOTAL_POINTS]

/-- C5 witness at the sub-budget 3900 of the running example. -/
theorem C5_pool_construction_and_value_invariant_witness :
    (0 : ℚ) < 3900 ∧ (build_pieces (3900 : ℚ)).length = 15
      ∧ pool_value (build_pieces (3900 : ℚ)) = 3900
      ∧ pool_value (assign_piece (build_pieces (3900 : ℚ)) 7) = 3900 := by
  have h := C5_pool_construction_and_value_invariant 3900 (by norm_num)
  exact ⟨by norm_num, h.1, h.2.2.2.2.1, by
    rw [h.2.2.2.2.2.2.1 (build_pieces 3900) 7]; exact h.2.2.2.2.1⟩

/-- C4 counterexample: with two instruments, window 2 and default weights,
date 0 is earlier than the window (`0 + 1 < 2`) yet `compute_sos_frame`
returns the numeric score 0.5 for instrument 0 — not an absent value as the
claim states. -/
theorem C4_counterexample_early_score_present :
    (0 + 1 < 2)
    ∧ sos_col (fun _ _ => 1) 2 2 (3 / 5) (1 / 4) (3 / 20) 0 0 = some (1 / 2) := by
  exact ⟨by decide, by rw [sos_col, sos_val_early_date _ _ _ _ _ _ _ _ (by decide)]⟩

/-- C4 amended: on every date earlier than the moving-average window, the
ScoreEngine does NOT leave the score absent; the per-date loop fills the
undefined momentum/volatility with 0, every all-equal fallback fires, and
the frame carries the numeric score 0.5 for every instrument (for any
weights).  Downstream, the backtest loop never reads those dates because it
starts at index `ma_period`. -/
theorem C4_early_dates_score_half (price : ℕ → ℕ → ℚ) (numTickers w : ℕ)
    (wM wV wL : ℚ) (i t : ℕ) (ht : t < numTickers) (hw : i + 1 < w) :
    sos_col price numTickers w wM wV wL i t = some (1 / 2) := by
  rw [sos_col, sos_val_early_date price numTickers w wM wV wL i t hw]

/-- C4 witness: the amended statement evaluated at a concrete early date. -/
theorem C4_early_dates_score_half_witness :
    (0 < 3 ∧ 1 + 1 < 5)
    ∧ sos_col (fun i t => (i : ℚ) + t) 3 5 (3 / 5) (1 / 4) (3 / 20) 1 0 = some (1 / 2) :=
  ⟨by decide, C4_early_dates_score_half (fun i t => (i : ℚ) + t) 3 5 (3 / 5) (1 / 4) (3 / 20)
    1 0 (by decide) (by decide)⟩

/-- C8 counterexample: a Black-square tile with a free Pawn, 1000 open
positions and zero reserve.  The claimed headroom gate
`open count < reserve / unit value` is violated (`¬ 1000 < 0 / 100`), yet
`_analyze_deployment_opportunity` still emits the tactical advisory: the
tactical branch carries no capital-headroom check. -/
theorem C8_counterexample_tactical_not_gated :
    analyze_deployment_opportunity c8_tile (build_pieces 3900) 1000 0
      = [⟨"DEPLOYMENT_TACTICAL", 0, "Pawn", 25, 1 / 2⟩]
    ∧ ¬ ((1000 : ℚ) < 0 / 100) := by
  constructor
  · have hb : get_best_piece_for_rank (build_pieces 3900) c8_tile.rank
        = some ⟨0, "Queen", 9, (9 : ℕ) * ((3900 : ℚ) / (TOTAL_POINTS : ℚ)), false⟩ := rfl
    have ht : get_tactical_piece_framework (build_pieces 3900)
        = some ⟨7, "Pawn", 1, (1 : ℕ) * ((3900 : ℚ) / (TOTAL_POINTS : ℚ)), false⟩ := rfl
    rw [analyze_deployment_opportunity, hb, ht]
    norm_num [c8_tile, can_deploy_tactical_black]
  · norm_num

/-- C8 amended: in `_analyze_deployment_opportunity` only the open-favorable
(White) advisory is gated by the capital-headroom check `open count <
reserve / unit value`; the open-tactical advisory is emitted independently
of the open count and the reserve (the emitted tactical advisories are
literally the same for any values of the two capital arguments). -/
theorem C8_only_white_advisory_headroom_gated :
    ∀ (tile : StockTile) (inv : List Piece) (d : ℕ) (cash : ℚ),
      (∀ a ∈ analyze_deployment_opportunity tile inv d cash, a.action = "DEPLOYMENT" →
        ∃ piece, get_best_piece_for_rank inv tile.rank = some piece
          ∧ tile.square_color = "white" ∧ can_deploy_on_white tile piece = true
          ∧ (d : ℚ) < cash / piece.value)
      ∧ ∀ (d' : ℕ) (cash' : ℚ),
          (analyze_deployment_opportunity tile inv d cash).filter
              (fun a => decide (a.action = "DEPLOYMENT_TACTICAL"))
            = (analyze_deployment_opportunity tile inv d' cash').filter
              (fun a => decide (a.action = "DEPLOYMENT_TACTICAL")) := by
  intro tile inv d cash
  constructor
  · intro a ha hact
    rw [analyze_deployment_opportunity, List.mem_append] at ha
    rcases ha with ha | ha
    · cases hb : get_best_piece_for_rank inv tile.rank with
      | none => rw [hb] at ha; simp at ha
      | some piece =>
          rw [hb] at ha
          dsimp only at ha
          split_ifs at ha with hcond
          · exact ⟨piece, rfl, hcond.1, hcond.2.1, hcond.2.2⟩
          · simp at ha
    · exfalso
      cases ht : get_tactical_piece_framework inv with
      | none => rw [ht] at ha; simp at ha
      | some tp =>
          rw [ht] at ha
          dsimp only at ha
          split_ifs at ha with hcond
          · rw [List.mem_singleton] at ha
            rw [ha] at hact
            simp at hact
          · simp at ha
  · intro d' cash'
    cases hb : get_best_piece_for_rank inv tile.rank with
    | none =>
        cases ht : get_tactical_piece_framework inv with
        | none => simp [analyze_deployment_opportunity, hb, ht]
        | some tp => simp [analyze_deployment_opportunity, hb, ht]
    | some piece =>
        cases ht : get_tactical_piece_framework inv with
        | none =>
            by_cases h1 : tile.square_color = "white" ∧ can_deploy_on_white tile piece = true
                ∧ (d : ℚ) < cash / piece.value <;>
              by_cases h2 : tile.square_color = "white" ∧ can_deploy_on_white tile piece = true
                  ∧ (d' : ℚ) < cash' / piece.value <;>
              simp [analyze_deployment_opportunity, hb, ht, h1, h2]
        | some tp =>
            by_cases h1 : tile.square_color = "white" ∧ can_deploy_on_white tile piece = true
                ∧ (d : ℚ) < cash / piece.value <;>
              by_cases h2 : tile.square_color = "white" ∧ can_deploy_on_white tile piece = true
                  ∧ (d' : ℚ) < cash' / piece.value <;>
              simp [analyze_deployment_opportunity, hb, ht, h1, h2]

/-- C8 witness: the amended statement evaluated on the Black-tile fixture;
the tactical advisory list is identical for reserves 0 and 10⁶ and open
counts 1000 and 0. -/
theorem C8_only_white_advisory_headroom_gated_witness :
    (analyze_deployment_opportunity c8_tile (build_pieces 3900) 1000 0).filter
        (fun a => decide (a.action = "DEPLOYMENT_TACTICAL"))
      = (analyze_deployment_opportunity c8_tile (build_pieces 3900) 0 1000000).filter
        (fun a => decide (a.action = "DEPLOYMENT_TACTICAL")) :=
  (C8_only_white_advisory_headroom_gated c8_tile (build_pieces 3900) 1000 0).2 0 1000000

/-- C1: when a position opened on White is observed on Black on day `t`
(both price and MA defined today, and tomorrow's price defined), the day
step records EXACTLY one SELL for that ticker, and that record carries the
day-`t+1` price and the day-`t+1` closing date — never day `t`'s. -/
theorem C1_blackflip_executes_at_lookahead_price (md : MarketData) (rcw : ℤ)
    (maxp i : ℕ) {t : ℕ} {pos : Position} {p m ep : ℚ} (st : BTState)
    (hnd : (st.positions.map Prod.fst).Nodup)
    (hf : find_pos st.positions t = some pos)
    (htb : pos.tactical_black = false)
    (hi : pos.initiated_on_square = "white")
    (hp : md.price i t = some p) (hm : md.ma i t = some m)
    (hsq : square_of p m = "black")
    (hep : md.price (i + 1) t = some ep) :
    ∃ ts, (day_step md rcw maxp i st).trades = st.trades ++ ts
      ∧ ts.filter (fun tr => decide (tr.ticker = t ∧ tr.action = "SELL"))
        = [sell_record t pos ep (md.date (i + 1)) "black_flip_stoploss"] := by
  obtain ⟨hqueue, hf1⟩ := @close_decide_queues_blackflip (md.date i)
    (md.price i) (md.ma i) rcw t pos p m st.positions hf htb hi hp hm hsq
  rw [day_step]
  set r := close_decide (md.date i) (md.price i) (md.ma i) rcw st.positions with hr
  set st1 : BTState := { st with positions := r.1 } with hst1
  have hqnd : (r.2.map Prod.fst).Nodup := by
    refine List.Nodup.sublist ?_ hnd
    rw [hr]
    exact close_decide_snd_keys_sublist _ _ _ _ _
  have hf1' : find_pos st1.positions t = some pos := hf1
  obtain ⟨ts1, hts1, hfil1⟩ := exec_closes_sell_emitted (md.price (i + 1)) (md.date (i + 1))
    r.2 st1 hqnd hqueue hf1' hep
  set st2 := exec_closes (md.price (i + 1)) (md.date (i + 1)) r.2 st1 with hst2
  have hts1' : st2.trades = st.trades ++ ts1 := hts1
  by_cases hslots : ((maxp : ℤ) - st2.positions.length) > 0
  · rw [if_pos hslots]
    obtain ⟨ts2, ext, htr2, _, hall2, _, _⟩ :=
      open_go_spec md i (sort_cands (build_cands md i st2.positions))
        ((maxp : ℤ) - st2.positions.length) st2
    refine ⟨ts1 ++ ts2, ?_, ?_⟩
    · rw [htr2, hts1']
      simp
    · rw [List.filter_append, hfil1]
      have hnil : ts2.filter (fun tr => decide (tr.ticker = t ∧ tr.action = "SELL")) = [] := by
        rw [List.filter_eq_nil_iff]
        intro tr htr
        have hbuy := (hall2 tr htr).1
        simp [hbuy]
      rw [hnil]
      simp
  · rw [if_neg hslots]
    exact ⟨ts1, hts1', hfil1⟩

/-- C1 witness: the theorem applied to the `c1_st`/`c1_md` fixture at day 0. -/
theorem C1_blackflip_executes_at_lookahead_price_witness :
    ∃ ts, (day_step c1_md 3 8 0 c1_st).trades = c1_st.trades ++ ts
      ∧ ts.filter (fun tr => decide (tr.ticker = 0 ∧ tr.action = "SELL"))
        = [sell_record 0 c1_pos 10 (c1_md.date 1) "black_flip_stoploss"] :=
  @C1_blackflip_executes_at_lookahead_price c1_md 3 8 0 0 c1_pos 10 20 10 c1_st
    (by decide) (by decide) (by decide) (by decide) (by decide) (by decide)
    (by decide) (by decide)

/-- C6: the open-position map can never exceed the configured maximum:
the close decision pass preserves the map size, close execution and the
end-of-run close only shrink it, the deployment walk respects the remaining
slot budget (`slots.toNat` appends at most), a whole day step preserves the
bound, every prefix of the day loop preserves it, and any state a
successful `run_backtest` returns satisfies it. -/
theorem C6_open_positions_bounded (md : MarketData) (rcw : ℤ) (maxp : ℕ) :
    (∀ (today : ℤ) (pr mas : ℕ → Option ℚ) (ps : List (ℕ × Position)),
        ((close_decide today pr mas rcw ps).1).length = ps.length)
    ∧ (∀ (np : ℕ → Option ℚ) (tm : ℤ) (q : List (ℕ × String)) (st : BTState),
        (exec_closes np tm q st).positions.length ≤ st.positions.length)
    ∧ (∀ (i : ℕ) (cands : List Cand) (slots : ℤ) (st : BTState),
        st.positions.length + slots.toNat ≤ maxp →
        (open_go md i cands slots st).positions.length ≤ maxp)
    ∧ (∀ (i : ℕ) (st : BTState), st.positions.length ≤ maxp →
        (day_step md rcw maxp i st).positions.length ≤ maxp)
    ∧ (∀ (n i : ℕ) (st : BTState), st.positions.length ≤ maxp →
        (run_days md rcw maxp i n st).positions.length ≤ maxp)
    ∧ (∀ (lp : ℕ → Option ℚ) (ld : ℤ) (snap : List (ℕ × Position)) (st : BTState),
        (final_close lp ld snap st).positions.length ≤ st.positions.length)
    ∧ (∀ (cap : ℚ) (rl : String) (maw : ℕ) (st : BTState),
        run_backtest md cap rl maw rcw maxp = .ok st → st.positions.length ≤ maxp) := by
  refine ⟨fun today pr mas ps => close_decide_fst_length today pr mas rcw ps,
    fun np tm q st => exec_closes_length_le np tm q st,
    ?_, fun i st h => day_step_count md rcw maxp i st h,
    fun n i st h => run_days_count md rcw maxp n i st h,
    fun lp ld snap st => final_close_length_le lp ld snap st, ?_⟩
  · intro i cands slots st h
    obtain ⟨ts, ext, _, hpos, _, _, hlen⟩ := open_go_spec md i cands slots st
    rw [hpos, List.length_append]
    omega
  · intro cap rl maw st h
    rw [run_backtest] at h
    by_cases hg : md.numDays < maw + 2
    · rw [if_pos hg] at h
      exact Except.noConfusion h
    · rw [if_neg hg] at h
      obtain rfl := Except.ok.inj h
      refine le_trans (final_close_length_le _ _ _ _) ?_
      exact run_days_count md rcw maxp _ maw _ (by simp)

/-- C6 witness: the bound-preservation conjuncts evaluated on concrete
states (a 1-position map with maximum 8). -/
theorem C6_open_positions_bounded_witness :
    ((close_decide (c1_md.date 0) (c1_md.price 0) (c1_md.ma 0) 3 c1_st.positions).1).length
        = c1_st.positions.length
    ∧ (open_go c1_md 0 [] 7 c1_st).positions.length ≤ 8
    ∧ (day_step c1_md 3 8 0 c1_st).positions.length ≤ 8
    ∧ (run_days c1_md 3 8 0 2 c1_st).positions.length ≤ 8 := by
  obtain ⟨h1, _, h3, h4, h5, _, _⟩ := C6_open_positions_bounded c1_md 3 8
  exact ⟨h1 (c1_md.date 0) (c1_md.price 0) (c1_md.ma 0) c1_st.positions,
    h3 0 [] 7 c1_st (by decide), h4 0 c1_st (by decide), h5 2 0 c1_st (by decide)⟩

/-- C9: once a tactical position has been observed on White after opening,
the decision pass latches its `tactical_reclaimed` flag inside the day step;
from then on no mandatory close ever fires for it — a day step keeps the
binding verbatim and records no trade for its ticker, the same holds over
any number of further days, and the position is finally force-closed by the
end-of-run walk with reason `end_of_sim` (given a defined last price). -/
theorem C9_reclaimed_tactical_position_never_closed_in_loop (md : MarketData)
    (rcw : ℤ) (maxp : ℕ) (t : ℕ) (pos : Position) (hticknd : md.tickers.Nodup) :
    (∀ (i : ℕ) (st : BTState), (st.positions.map Prod.fst).Nodup →
        find_pos st.positions t = some pos → pos.tactical_black = true →
        pos.tactical_reclaimed = true →
        find_pos (day_step md rcw maxp i st).positions t = some pos
          ∧ ∃ ts, (day_step md rcw maxp i st).trades = st.trades ++ ts
              ∧ ∀ tr ∈ ts, tr.ticker ≠ t)
    ∧ (∀ (i : ℕ) (st : BTState) (p m : ℚ), (st.positions.map Prod.fst).Nodup →
        find_pos st.positions t = some pos → pos.tactical_black = true →
        md.price i t = some p → md.ma i t = some m → square_of p m = "white" →
        find_pos (day_step md rcw maxp i st).positions t
          = some { pos with tactical_reclaimed := true })
    ∧ (∀ (n i : ℕ) (st : BTState), (st.positions.map Prod.fst).Nodup →
        find_pos st.positions t = some pos → pos.tactical_black = true →
        pos.tactical_reclaimed = true →
        find_pos (run_days md rcw maxp i n st).positions t = some pos
          ∧ ∃ ts, (run_days md rcw maxp i n st).trades = st.trades ++ ts
              ∧ ∀ tr ∈ ts, tr.ticker ≠ t)
    ∧ (∀ (lp : ℕ → Option ℚ) (ld : ℤ) (snap : List (ℕ × Position)) (st : BTState) (ep : ℚ),
        (t, pos) ∈ snap → lp t = some ep →
        sell_record t pos ep ld "end_of_sim" ∈ (final_close lp ld snap st).trades) := by
  refine ⟨?_, ?_, ?_, ?_⟩
  · intro i st hnd hf htb hrc
    obtain ⟨h1, _, h3⟩ := day_step_reclaimed_preserved md rcw maxp i st hticknd hnd hf htb hrc
    exact ⟨h1, h3⟩
  · intro i st p m hnd hf htb hp hm hw
    obtain ⟨hf1, hq⟩ := @close_decide_latches_white (md.date i) (md.price i) (md.ma i)
      rcw t pos p m st.positions hnd hf htb hp hm hw
    rw [day_step]
    set r := close_decide (md.date i) (md.price i) (md.ma i) rcw st.positions with hr
    set st1 : BTState := { st with positions := r.1 } with hst1
    have hqf : t ∉ r.2.map Prod.fst := not_mem_map_fst_of_forall hq
    set st2 := exec_closes (md.price (i + 1)) (md.date (i + 1)) r.2 st1 with hst2
    have hf2 : find_pos st2.positions t = some { pos with tactical_reclaimed := true } := by
      rw [hst2, exec_closes_find_not_mem _ _ _ _ hqf]
      exact hf1
    by_cases hslots : ((maxp : ℤ) - st2.positions.length) > 0
    · rw [if_pos hslots]
      obtain ⟨ts2, ext, _, hpos2, _, _, _⟩ :=
        open_go_spec md i (sort_cands (build_cands md i st2.positions))
          ((maxp : ℤ) - st2.positions.length) st2
      rw [hpos2]
      exact find_pos_append_left hf2 ext
    · rw [if_neg hslots]
      exact hf2
  · intro n i st hnd hf htb hrc
    obtain ⟨h1, _, h3⟩ :=
      run_days_reclaimed_preserved md rcw maxp hticknd n i st hnd hf htb hrc
    exact ⟨h1, h3⟩
  · intro lp ld snap st ep hmem hlp
    exact final_close_emits lp ld snap st hmem hlp

/-- C9 witness: the theorem applied to the latched `c9_st` fixture,
the latch conjunct applied to the unlatched fixture under White data, and
the end-of-run conjunct applied to a concrete snapshot. -/
theorem C9_reclaimed_tactical_position_never_closed_in_loop_witness :
    (find_pos (day_step c9_md 3 8 4 c9_st).positions 0 = some c9_pos
      ∧ ∃ ts, (day_step c9_md 3 8 4 c9_st).trades = c9_st.trades ++ ts
          ∧ ∀ tr ∈ ts, tr.ticker ≠ 0)
    ∧ find_pos (day_step c9_md 3 8 4 c9_st_unreclaimed).positions 0
        = some { c9_pos_unreclaimed with tactical_reclaimed := true }
    ∧ (find_pos (run_days c9_md 3 8 4 3 c9_st).positions 0 = some c9_pos
      ∧ ∃ ts, (run_days c9_md 3 8 4 3 c9_st).trades = c9_st.trades ++ ts
          ∧ ∀ tr ∈ ts, tr.ticker ≠ 0)
    ∧ sell_record 0 c9_pos 10 (c9_md.date 8) "end_of_sim"
        ∈ (final_close (c9_md.price 8) (c9_md.date 8) c9_st.positions c9_st).trades := by
  obtain ⟨h1, _, h3, h4⟩ :=
    C9_reclaimed_tactical_position_never_closed_in_loop c9_md 3 8 0 c9_pos (by decide)
  obtain ⟨_, h2', _, _⟩ :=
    C9_reclaimed_tactical_position_never_closed_in_loop c9_md 3 8 0 c9_pos_unreclaimed
      (by decide)
  refine ⟨h1 4 c9_st (by decide) (by decide) (by decide) (by decide), ?_,
    h3 3 4 c9_st (by decide) (by decide) (by decide) (by decide),
    h4 (c9_md.price 8) (c9_md.date 8) c9_st.positions c9_st 10 (by decide) (by decide)⟩
  exact h2' 4 c9_st_unreclaimed 10 5 (by decide) (by decide) (by decide) (by decide)
    (by decide) (by decide)

/-- C10: a deployment decided on day `t` stores day `t` as the position's
opened date while its BUY ledger record is dated day `t+1` (both zones);
a close execution copies the STORED opened date onto the SELL record (so
the SELL reports one day earlier than the matching BUY); and the tactical
reclaim test counts days as `today - stored opened date`, i.e. from the
decision day, not the execution day. -/
theorem C10_opened_date_skew (md : MarketData) (i : ℕ) :
    (∀ (c : Cand) (cs : List Cand) (slots : ℤ) (st : BTState) (piece : Piece) (ep : ℚ),
      ¬ slots ≤ 0 → c.square = "white" →
      get_best_piece_for_rank st.inventory (map_sos_to_tile c.sos).1 = some piece →
      md.price (i + 1) c.ticker = some ep → ¬ ep ≤ 0 → ¬ (⌊piece.value / ep⌋ ≤ 0) →
      open_go md i (c :: cs) slots st = open_go md i cs (slots - 1)
        ⟨st.positions ++ [(c.ticker, white_position ⌊piece.value / ep⌋ ep (md.date i) piece)],
          assign_piece st.inventory piece.id,
          st.trades ++ [buy_record c.ticker ep ⌊piece.value / ep⌋ (md.date (i + 1))
            "deploy_on_white" "white" false]⟩
        ∧ (white_position ⌊piece.value / ep⌋ ep (md.date i) piece).opened_date = md.date i
        ∧ (buy_record c.ticker ep ⌊piece.value / ep⌋ (md.date (i + 1))
            "deploy_on_white" "white" false).opened_date = md.date (i + 1)
        ∧ (buy_record c.ticker ep ⌊piece.value / ep⌋ (md.date (i + 1))
            "deploy_on_white" "white" false).closed_date = none)
    ∧ (∀ (c : Cand) (cs : List Cand) (slots : ℤ) (st : BTState) (piece : Piece) (ep : ℚ),
      ¬ slots ≤ 0 → c.square ≠ "white" → c.square = "black" →
      get_tactical_piece st.inventory = some piece →
      md.price (i + 1) c.ticker = some ep → ¬ ep ≤ 0 → ¬ (⌊piece.value / ep⌋ ≤ 0) →
      open_go md i (c :: cs) slots st = open_go md i cs (slots - 1)
        ⟨st.positions ++ [(c.ticker, black_position ⌊piece.value / ep⌋ ep (md.date i) piece)],
          assign_piece st.inventory piece.id,
          st.trades ++ [buy_record c.ticker ep ⌊piece.value / ep⌋ (md.date (i + 1))
            "tactical_black_entry" "black" true]⟩
        ∧ (black_position ⌊piece.value / ep⌋ ep (md.date i) piece).opened_date = md.date i
        ∧ (buy_record c.ticker ep ⌊piece.value / ep⌋ (md.date (i + 1))
            "tactical_black_entry" "black" true).opened_date = md.date (i + 1))
    ∧ (∀ (np : ℕ → Option ℚ) (tm : ℤ) (q : List (ℕ × String)) (st : BTState)
        (t : ℕ) (reason : String) (pos : Position) (ep : ℚ),
      (pop_pos st.positions t).1 = some pos → np t = some ep →
      exec_closes np tm ((t, reason) :: q) st = exec_closes np tm q
        ⟨(pop_pos st.positions t).2,
          recycle_piece st.inventory pos.piece_id (ep * pos.shares),
          st.trades ++ [sell_record t pos ep tm reason]⟩
        ∧ (sell_record t pos ep tm reason).opened_date = pos.opened_date)
    ∧ (∀ (today : ℤ) (pr mas : ℕ → Option ℚ) (rcw : ℤ) (t : ℕ) (pos : Position)
        (rest : List (ℕ × Position)) (p m : ℚ),
      pr t = some p → mas t = some m → pos.tactical_black = true →
      square_of p m ≠ "white" →
      (close_decide today pr mas rcw ((t, pos) :: rest)).2
        = (if today - pos.opened_date ≥ rcw ∧ pos.tactical_reclaimed = false
            then [(t, "tactical_reclaim_failed")] else [])
          ++ (close_decide today pr mas rcw rest).2) := by
  refine ⟨?_, ?_, ?_, ?_⟩
  · intro c cs slots st piece ep hslots hw hgb hep heple hshle
    rw [open_go, if_neg hslots, if_pos hw, hgb, hep]
    dsimp only
    rw [if_neg heple, if_neg hshle]
    exact ⟨rfl, rfl, rfl, rfl⟩
  · intro c cs slots st piece ep hslots hw hb hgt hep heple hshle
    rw [open_go, if_neg hslots, if_neg hw, if_pos hb, hgt, hep]
    dsimp only
    rw [if_neg heple, if_neg hshle]
    exact ⟨rfl, rfl, rfl⟩
  · intro np tm q st t reason pos ep hpop hnp
    have hpp : pop_pos st.positions t = (some pos, (pop_pos st.positions t).2) := by
      rw [← hpop]
    rw [exec_closes, hpp, hnp]
    exact ⟨rfl, rfl⟩
  · intro today pr mas rcw t pos rest p m hp hm htb hw
    rw [close_decide, hp, hm]
    dsimp only
    rw [if_pos htb, if_neg hw]
    by_cases hq : today - pos.opened_date ≥ rcw ∧ pos.tactical_reclaimed = false
    · rw [if_pos hq, if_pos hq]
      rfl
    · rw [if_neg hq, if_neg hq]
      rfl

/-- C10 witness: a concrete tactical open on day 0 stores opened date 50
(the decision day) while its BUY record is dated 51; the close execution
copies the stored date; and the reclaim test at day 104 for a position
stored as opened on 100 counts 4 days. -/
theorem C10_opened_date_skew_witness :
    (open_go c1_md 0 [⟨1 / 2, 0, "black"⟩] 8 ⟨[], build_pieces 3900, []⟩
      = open_go c1_md 0 [] 7
        ⟨[(0, black_position ⌊c10_pawn.value / 10⌋ 10 (c1_md.date 0) c10_pawn)],
          assign_piece (build_pieces 3900) c10_pawn.id,
          [buy_record 0 10 ⌊c10_pawn.value / 10⌋
            (c1_md.date 1) "tactical_black_entry" "black" true]⟩
      ∧ (black_position ⌊c10_pawn.value / 10⌋ 10 (c1_md.date 0) c10_pawn).opened_date
          = c1_md.date 0
      ∧ (buy_record 0 10 ⌊c10_pawn.value / 10⌋
          (c1_md.date 1) "tactical_black_entry" "black" true).opened_date = c1_md.date 1)
    ∧ ((sell_record 0 c9_pos 10 105 "early_exit").opened_date = c9_pos.opened_date)
    ∧ (close_decide 104 (fun _ => some 10) (fun _ => some 20) 3
        [(0, { c9_pos_unreclaimed with opened_date := 100 })]).2
        = [(0, "tactical_reclaim_failed")] := by
  obtain ⟨_, h2, h3, _⟩ := C10_opened_date_skew c1_md 0
  have hsh : ¬ (⌊c10_pawn.value / (10 : ℚ)⌋ ≤ 0) := by
    have hv : c10_pawn.value = 100 := by
      show (1 : ℕ) * ((3900 : ℚ) / (TOTAL_POINTS : ℚ)) = 100
      norm_num [TOTAL_POINTS]
    rw [hv]
    norm_num
  refine ⟨h2 ⟨1 / 2, 0, "black"⟩ [] 8 ⟨[], build_pieces 3900, []⟩ c10_pawn 10
      (by norm_num) (by decide) (by decide) rfl (by decide) (by norm_num) hsh, ?_, by decide⟩
  exact (h3 (fun _ => some 10) 105 [] ⟨[(0, c9_pos)], [], []⟩ 0 "early_exit" c9_pos 10
    (by decide) (by decide)).2

/-- C7: in a run over consecutive calendar days with a single instrument
that sits in the unfavorable zone on every day (price never above its
moving average, prices positive and low enough for the smallest unit to buy
at least one share), a tactical position opens on the first loop day and,
never reclaiming White, is force-closed with reason
`tactical_reclaim_failed` (the reclaim-timeout code): the run records
exactly one such SELL, whose stored opened date is the decision day `d0+s`
and whose closing date is `d0+s+4` — exactly the 4th simulated calendar day
after opening (queued when `today - opened_date ≥ 3`, executed at the next
day's price).  Capital 13000 at Moderate risk gives the 3900 sub-budget of
the running example, so the smallest unit is worth 100. -/
theorem C7_reclaim_timeout_closes_on_fourth_day (d0 : ℤ) (s : ℕ) (pr mv sosf : ℕ → ℚ)
    (hp : ∀ i, 0 < pr i) (hpm : ∀ i, pr i ≤ mv i)
    (hfl : ∀ i, 1 ≤ ⌊(100 : ℚ) / pr i⌋) :
    ∃ st tr, run_backtest
        ⟨[0], s + 5, fun i => d0 + i, fun i _ => some (pr i),
          fun i _ => some (mv i), fun i _ => some (sosf i)⟩
        13000 "Moderate" s 3 8 = .ok st
      ∧ st.trades.filter (fun tr2 => decide (tr2.reason = "tactical_reclaim_failed")) = [tr]
      ∧ tr.action = "SELL" ∧ tr.ticker = 0 ∧ tr.tactical = true
      ∧ tr.opened_date = d0 + s ∧ tr.closed_date = some (d0 + s + 4) := by
  have hsq : ∀ i, square_of (pr i) (mv i) = "black" := fun i => by
    rw [square_of, if_neg (not_lt.mpr (hpm i))]
  have hep : ∀ i, ¬ (pr i ≤ 0) := fun i => not_le.mpr (hp i)
  have hval : c10_pawn.value = 100 := by
    show (1 : ℕ) * ((3900 : ℚ) / (TOTAL_POINTS : ℚ)) = 100
    norm_num [TOTAL_POINTS]
  have hshn : ∀ i, ¬ (⌊c10_pawn.value / pr i⌋ ≤ 0) := fun i => by
    rw [hval]; have := hfl i; omega
  have hgt : get_tactical_piece (build_pieces 3900) = some c10_pawn := rfl
  have hgt2 : ∀ rv, get_tactical_piece
      (recycle_piece (assign_piece (build_pieces 3900) 7) 7 rv) = some c10_pawn := fun rv => by
    rw [recycle_rv_irrel _ _ rv 0]; rfl
  have hid7 : c10_pawn.id = 7 := rfl
  set md : MarketData := ⟨[0], s + 5, fun i => d0 + i, fun i _ => some (pr i),
      fun i _ => some (mv i), fun i _ => some (sosf i)⟩ with hmd
  set sh1 : ℤ := ⌊c10_pawn.value / pr (s + 1)⌋ with hsh1
  set p1 : Position := black_position sh1 (pr (s + 1)) (d0 + ↑s) c10_pawn with hp1
  set b1 : TradeRec := buy_record 0 (pr (s + 1)) sh1 (d0 + (↑s + 1))
      "tactical_black_entry" "black" true with hb1
  set inv1 : List Piece := assign_piece (build_pieces 3900) 7 with hinv1
  set st1 : BTState := ⟨[(0, p1)], inv1, [b1]⟩ with hst1
  -- Day s: tactical open
  have h0 : day_step md 3 8 s ⟨[], build_pieces 3900, []⟩ = st1 := by
    simp +decide only [day_step, close_decide, exec_closes, build_cands, sort_cands,
      insert_cand, open_go, find_pos, List.filterMap_cons, List.filterMap_nil,
      hgt, hsq, hep, hshn, List.length_nil, if_true, if_false, List.nil_append,
      Nat.cast_succ, hst1, hp1, hb1, hinv1, hsh1]
    rfl
  -- Days with the position still open and the reclaim window not yet hit
  have hid : ∀ j : ℕ, ¬ ((3 : ℤ) ≤ d0 + (j : ℤ) - (d0 + (s : ℤ))) →
      day_step md 3 8 j st1 = st1 := by
    intro j hj
    have hcond : ((3 : ℤ) ≤ d0 + (j : ℤ) - (d0 + (s : ℤ))) = False := eq_false hj
    simp +decide only [day_step, close_decide, exec_closes, build_cands, sort_cands,
      insert_cand, open_go, find_pos, black_position, List.filterMap_cons,
      List.filterMap_nil, hsq, hep, List.length_cons, List.length_nil, if_true, if_false,
      List.nil_append, Nat.cast_succ, hst1, hp1, ge_iff_le, hcond, false_and]
  -- Day s+3: reclaim timeout queued and executed at day s+4's price, then a re-open
  set sh2 : ℤ := ⌊c10_pawn.value / pr (s + 1 + 1 + 1 + 1)⌋ with hsh2
  set sellR : TradeRec := sell_record 0 p1 (pr (s + 1 + 1 + 1 + 1))
      (d0 + (↑s + 1 + 1 + 1 + 1)) "tactical_reclaim_failed" with hsellR
  set p2 : Position := black_position sh2 (pr (s + 1 + 1 + 1 + 1))
      (d0 + (↑s + 1 + 1 + 1)) c10_pawn with hp2
  set b2 : TradeRec := buy_record 0 (pr (s + 1 + 1 + 1 + 1)) sh2
      (d0 + (↑s + 1 + 1 + 1 + 1)) "tactical_black_entry" "black" true with hb2
  set inv2 : List Piece := assign_piece
      (recycle_piece inv1 7 (pr (s + 1 + 1 + 1 + 1) * ↑sh1)) 7 with hinv2
  set st3 : BTState := ⟨[(0, p2)], inv2, [b1, sellR, b2]⟩ with hst3
  have h3 : day_step md 3 8 (s + 1 + 1 + 1) st1 = st3 := by
    have hcond : ((3 : ℤ) ≤ d0 + ((s : ℤ) + 1 + 1 + 1) - (d0 + (s : ℤ))) = True := by
      refine eq_true ?_
      omega
    simp +decide only [day_step, close_decide, exec_closes, build_cands, sort_cands,
      insert_cand, open_go, find_pos, pop_pos, black_position, List.filterMap_cons,
      List.filterMap_nil, hsq, hep, hshn, hgt2, List.length_cons, List.length_nil,
      if_true, if_false, List.nil_append, Nat.cast_succ, ge_iff_le, hcond, true_and,
      and_true, hid7, hst1, hst3, hp1, hp2, hb1, hb2, hinv1, hinv2, hsh1, hsh2, hsellR]
    rfl
  have hcap : (13000 : ℚ) * risk_alloc "Moderate" = 3900 := by
    rw [risk_alloc, if_neg (by decide), if_pos rfl]
    norm_num
  set sellE : TradeRec := sell_record 0 p2 (pr (s + 1 + 1 + 1 + 1))
      (d0 + (↑s + 1 + 1 + 1 + 1)) "end_of_sim" with hsellE
  set stF : BTState := ⟨[], recycle_piece inv2 7 (pr (s + 1 + 1 + 1 + 1) * ↑sh2),
      [b1, sellR, b2, sellE]⟩ with hstF
  have hrun : run_days md 3 8 s (md.numDays - 1 - s)
      ⟨[], build_pieces ((13000 : ℚ) * risk_alloc "Moderate"), []⟩ = st3 := by
    rw [hcap]
    rw [show md.numDays - 1 - s = 1 + 1 + 1 + 1 from by show s + 5 - 1 - s = 1 + 1 + 1 + 1; omega]
    rw [run_days, h0]
    rw [run_days, hid (s + 1) (by push_cast; omega)]
    rw [run_days, hid (s + 1 + 1) (by push_cast; omega)]
    rw [run_days, h3]
    rw [run_days]
  have hfin : final_close (md.price (md.numDays - 1)) (md.date (md.numDays - 1))
      st3.positions st3 = stF := by
    rw [show md.numDays - 1 = s + 1 + 1 + 1 + 1 from by show s + 5 - 1 = s + 1 + 1 + 1 + 1; omega]
    simp +decide only [final_close, pop_pos, black_position, sell_record, if_true, if_false,
      Nat.cast_succ, hid7, hst3, hstF, hp1, hp2, hb1, hb2, hinv2, hsh1, hsh2, hsellR, hsellE,
      List.nil_append, List.cons_append, List.append_nil]
  refine ⟨stF, sellR, ?_, ?_, rfl, rfl, rfl, rfl, ?_⟩
  · rw [run_backtest]
    rw [if_neg (show ¬ (md.numDays < s + 2) from by show ¬ (s + 5 < s + 2); omega)]
    show Except.ok (final_close (md.price (md.numDays - 1)) (md.date (md.numDays - 1))
      (run_days md 3 8 s (md.numDays - 1 - s)
        ⟨[], build_pieces ((13000 : ℚ) * risk_alloc "Moderate"), []⟩).positions
      (run_days md 3 8 s (md.numDays - 1 - s)
        ⟨[], build_pieces ((13000 : ℚ) * risk_alloc "Moderate"), []⟩)) = Except.ok stF
    rw [hrun, hfin]
  · show ([b1, sellR, b2, sellE].filter fun tr2 => decide (tr2.reason = "tactical_reclaim_failed")) = [sellR]
    simp +decide only [List.filter_cons, List.filter_nil, hb1, hb2, hsellR, hsellE,
      buy_record, sell_record, if_true, if_false]
  · show some (d0 + (↑s + 1 + 1 + 1 + 1)) = some (d0 + ↑s + 4)
    exact congrArg some (by ring)

/-- C7 witness: the scenario evaluated at start date 100, `ma_period` 4,
constant price 10 and moving average 20. -/
theorem C7_reclaim_timeout_closes_on_fourth_day_witness :
    ∃ st tr, run_backtest
        ⟨[0], 4 + 5, fun i => (100 : ℤ) + i, fun i _ => some ((fun _ => (10 : ℚ)) i),
          fun i _ => some ((fun _ => (20 : ℚ)) i), fun i _ => some ((fun _ => (1 / 2 : ℚ)) i)⟩
        13000 "Moderate" 4 3 8 = .ok st
      ∧ st.trades.filter (fun tr2 => decide (tr2.reason = "tactical_reclaim_failed")) = [tr]
      ∧ tr.action = "SELL" ∧ tr.ticker = 0 ∧ tr.tactical = true
      ∧ tr.opened_date = (100 : ℤ) + (4 : ℕ) ∧ tr.closed_date = some ((100 : ℤ) + (4 : ℕ) + 4) :=
  C7_reclaim_timeout_closes_on_fourth_day 100 4 (fun _ => 10) (fun _ => 20) (fun _ => 1 / 2)
    (fun i => by norm_num) (fun i => by norm_num) (fun i => by norm_num)

end Chess
